import Mathlib

/-!
Verification of the `complete-iter` tabular MDP solver (policy iteration).

The Rust sources are shallowly embedded here:
- `HashMap` becomes an association list `AssocMap` (key-value pairs; `insert`
  overwrites the value of an existing key, as `HashMap::insert` does);
- `f64` becomes `ℚ` (exact arithmetic in place of floating point; all the
  numeric claims are about which sums and comparisons are computed, not about
  rounding);
- a call of `.unwrap()` on a missing key (a panic) becomes `Option.none`
  propagated through the embedded function, so a `none` result means
  "this call panics";
- the `loop { ... counter += 1; if cond { break } }` shape becomes the
  combinator `loopW`, keeping the `u32` counter arithmetic (`% 2 ^ 32`)
  and instrumented with the number of iterations performed.  The fuel
  argument `2 ^ 32` is an upper bound after which the `u32` counter must
  have revisited every residue, so the embedded loop is total.
-/

namespace CompleteIter

/-- Association list standing in for Rust's `HashMap`. -/
abbrev AssocMap (α β : Type) := List (α × β)

/-- `HashMap::get`: value of the first (unique, for nodup keys) binding of `k`. -/
def mfind? {α β : Type} [DecidableEq α] : AssocMap α β → α → Option β
  | [], _ => none
  | kv :: rest, k => if kv.1 = k then some kv.2 else mfind? rest k

/-- `HashMap::insert`: overwrite the binding of `k` if present, else add it. -/
def minsert {α β : Type} [DecidableEq α] : AssocMap α β → α → β → AssocMap α β
  | [], k, v => [(k, v)]
  | kv :: rest, k, v => if kv.1 = k then (k, v) :: rest else kv :: minsert rest k v

/-- `map.entry(k).or_insert(d)` followed by an in-place modification `f`. -/
def mupdate {α β : Type} [DecidableEq α] (m : AssocMap α β) (k : α) (d : β) (f : β → β) :
    AssocMap α β :=
  minsert m k (f ((mfind? m k).getD d))

/-- `map.entry(k).or_insert(d)` with no further modification. -/
def morInsert {α β : Type} [DecidableEq α] (m : AssocMap α β) (k : α) (d : β) : AssocMap α β :=
  if (mfind? m k).isSome then m else minsert m k d

/-- The keys of an association map, in order. -/
def mkeys {α β : Type} (m : AssocMap α β) : List α := m.map Prod.fst

/-- The map has no repeated key. -/
def NodupKeys {α β : Type} (m : AssocMap α β) : Prop := (m.map Prod.fst).Nodup

instance {α β : Type} [DecidableEq α] (m : AssocMap α β) : Decidable (NodupKeys m) :=
  List.nodupDecidable _

/-- Both maps bind exactly the same set of keys. -/
def keysEq {α β γ : Type} [DecidableEq α] (m₁ : AssocMap α β) (m₂ : AssocMap α γ) : Prop :=
  (∀ kv ∈ m₁, (mfind? m₂ kv.1).isSome) ∧ (∀ kv ∈ m₂, (mfind? m₁ kv.1).isSome)

instance {α β γ : Type} [DecidableEq α] (m₁ : AssocMap α β) (m₂ : AssocMap α γ) :
    Decidable (keysEq m₁ m₂) := by
  unfold keysEq; infer_instance

/-- An iterator `map` whose body can panic: `none` as soon as one element
panics, otherwise the list of results (Rust panics at the first bad element,
but which element fails is irrelevant for an all-or-nothing `Option`). -/
def mapOpt {α β : Type} (f : α → Option β) : List α → Option (List β)
  | [] => some []
  | x :: xs =>
    match f x, mapOpt f xs with
    | some y, some ys => some (y :: ys)
    | _, _ => none

/-- Rust's `Iterator::max_by` over values: `none` on the empty map, otherwise
a binding whose value is maximal (the last such binding, as in Rust). -/
def maxByVal {α : Type} : AssocMap α ℚ → Option (α × ℚ)
  | [] => none
  | kv :: rest =>
    match maxByVal rest with
    | none => some kv
    | some best => if best.2 < kv.2 then some kv else some best

/-- Rust's `Iterator::max_by` over a list of numbers (returns the maximum). -/
def maxQList : List ℚ → Option ℚ
  | [] => none
  | x :: xs => some (xs.foldl max x)

/-- Total version of `maxQList` (0 on the empty list), for spec-side formulas. -/
def maxQListD : List ℚ → ℚ
  | [] => 0
  | x :: xs => xs.foldl max x

/-- `helper::match_mul_sum`: `Σ_{(k,v) ∈ m₁} m₂[k].unwrap_or(0) * v`. -/
def match_mul_sum {α : Type} [DecidableEq α] (m₁ m₂ : AssocMap α ℚ) : ℚ :=
  (m₁.map (fun kv => ((mfind? m₂ kv.1).getD 0) * kv.2)).sum

/-- The Rust `loop` shape shared by `evaluate_policy` and
`deterministic_policy_improvement`: run `body`, increment a `u32` counter,
break when the reported delta drops below `eps` or the counter equals `cap`.
Returns the final state together with the number of iterations performed.
`body s = none` models a panic inside the loop body. -/
def loopW {σ : Type} (body : σ → Option (σ × ℚ)) (eps : ℚ) (cap : Nat) :
    Nat → Nat → σ → Option (σ × Nat)
  | 0, _, s => some (s, 0)
  | fuel + 1, counter, s =>
    match body s with
    | none => none
    | some sd =>
      let counter' := (counter + 1) % 2 ^ 32
      if sd.2 < eps ∨ counter' = cap then some (sd.1, 1)
      else
        match loopW body eps cap fuel counter' sd.1 with
        | none => none
        | some r => some (r.1, r.2 + 1)

/-- Pure functional reading of the same loop, for a body split into a pure
step `step` and its stopping measure `dlt`: perform one step, stop if the
measure was below `eps`, and in any case stop after `fuel` steps. -/
def loopP {σ : Type} (step : σ → σ) (dlt : σ → ℚ) (eps : ℚ) : Nat → σ → σ
  | 0, s => s
  | fuel + 1, s =>
    let s' := step s
    if dlt s < eps then s' else loopP step dlt eps fuel s'

/-- Number of steps `loopP` performs. -/
def loopPCount {σ : Type} (step : σ → σ) (dlt : σ → ℚ) (eps : ℚ) : Nat → σ → Nat
  | 0, _ => 0
  | fuel + 1, s =>
    if dlt s < eps then 1 else loopPCount step dlt eps fuel (step s) + 1

/-! ## Embedding of `models.rs` -/

/-- `models::ModelState` — per-state transition/reward tables and the two
derived caches. -/
structure ModelState where
  state_id : Int
  transition_probs : AssocMap String (AssocMap Int ℚ)
  action_rewards : AssocMap String (AssocMap Int ℚ)
  state_reward : ℚ
  eval_action_rewards : AssocMap String ℚ
  eval_transition_probs : AssocMap Int (AssocMap String ℚ)
  deriving DecidableEq

/-- `ModelState::new` — all tables empty (running `calc_eval_rewards` on the
empty tables, as the Rust constructor does, leaves the empty cache). -/
def ModelState.new (id : Int) : ModelState :=
  { state_id := id
    transition_probs := []
    action_rewards := []
    state_reward := 0
    eval_action_rewards := []
    eval_transition_probs := [] }

/-- `ModelState::insert_link` — record one `(action, destination)` edge in both
the outcome table and the reward table. -/
def ModelState.insert_link (st : ModelState) (new_state : Int) (action : String)
    (prob reward : ℚ) : ModelState :=
  { st with
    transition_probs :=
      mupdate st.transition_probs action [] (fun row => minsert row new_state prob)
    action_rewards :=
      mupdate st.action_rewards action [] (fun row => minsert row new_state reward) }

/-- `ModelState::get_random_policy` — each known action gets `1 / #actions`. -/
def ModelState.get_random_policy (st : ModelState) : AssocMap String ℚ :=
  st.action_rewards.map (fun kv => (kv.1, 1 / (st.action_rewards.length : ℚ)))

/-- `ModelState::calc_eval_rewards` — for each action, the probability-weighted
sum of its rewards.  The Rust code unwraps two lookups
(`self.get_probs(action).unwrap().get(id).unwrap()`); a missing key there is a
panic, modelled by `none`. -/
def calcEvalRewards? (st : ModelState) : Option (AssocMap String ℚ) :=
  mapOpt (fun kv =>
    match mfind? st.transition_probs kv.1 with
    | none => none
    | some probs =>
      (mapOpt (fun dr => (mfind? probs dr.1).map (fun p => p * dr.2)) kv.2).map
        (fun terms => (kv.1, terms.sum))) st.action_rewards

/-- First pass of `ModelState::calc_eval_transition` restricted to one action
row: insert `action ↦ prob` under every destination of the row. -/
def transposeRow (action : String) (acc : AssocMap Int (AssocMap String ℚ)) :
    AssocMap Int ℚ → AssocMap Int (AssocMap String ℚ)
  | [] => acc
  | dp :: rest =>
    transposeRow action (mupdate acc dp.1 [] (fun row => minsert row action dp.2)) rest

/-- First pass of `ModelState::calc_eval_transition`: transpose the whole
`action → destination → prob` table into `destination → action → prob`. -/
def transposeAll (acc : AssocMap Int (AssocMap String ℚ)) :
    AssocMap String (AssocMap Int ℚ) → AssocMap Int (AssocMap String ℚ)
  | [] => acc
  | ap :: rest => transposeAll (transposeRow ap.1 acc ap.2) rest

/-- Second pass of `ModelState::calc_eval_transition`: give every action of the
state an entry in the row, with probability 0 when it is absent. -/
def zeroFill (row : AssocMap String ℚ) :
    AssocMap String (AssocMap Int ℚ) → AssocMap String ℚ
  | [] => row
  | ap :: rest => zeroFill (morInsert row ap.1 0) rest

/-- `calc_eval_transition` as a function of the outgoing table alone. -/
def calcEvalTransitionT (tp : AssocMap String (AssocMap Int ℚ)) :
    AssocMap Int (AssocMap String ℚ) :=
  (transposeAll [] tp).map (fun kv => (kv.1, zeroFill kv.2 tp))

/-- `ModelState::calc_eval_transition` — the zero-filled transpose cache. -/
def calcEvalTransition (st : ModelState) : AssocMap Int (AssocMap String ℚ) :=
  calcEvalTransitionT st.transition_probs

/-- `models::StateLink` — `(prev_state, new_state, action, probability, reward)`. -/
structure StateLink where
  prev : Int
  next : Int
  action : String
  prob : ℚ
  reward : ℚ
  deriving DecidableEq

/-- `models::SystemState` (the field name `speficication` is the source's). -/
structure SystemState where
  states : AssocMap Int ModelState
  speficication : List StateLink
  is_built : Bool
  deriving DecidableEq

/-- One step of `SystemState::build`'s first loop: ensure a model for
`link.prev` and insert the edge into it, then ensure a model for `link.next`. -/
def ingestOne (states : AssocMap Int ModelState) (l : StateLink) : AssocMap Int ModelState :=
  let states₁ :=
    mupdate states l.prev (ModelState.new l.prev)
      (fun st => st.insert_link l.next l.action l.prob l.reward)
  morInsert states₁ l.next (ModelState.new l.next)

/-- The first loop of `SystemState::build` over the whole specification list. -/
def ingest (states : AssocMap Int ModelState) : List StateLink → AssocMap Int ModelState
  | [] => states
  | l :: ls => ingest (ingestOne states l) ls

/-- The per-state part of `SystemState::build`'s second loop:
`calc_eval_rewards` (which can panic) then `calc_eval_transition`. -/
def cacheState (st : ModelState) : Option ModelState :=
  match calcEvalRewards? st with
  | none => none
  | some er =>
    let st₁ := { st with eval_action_rewards := er }
    some { st₁ with eval_transition_probs := calcEvalTransition st₁ }

/-- The second loop of `SystemState::build`: recompute both caches of every
state. -/
def computeCaches (states : AssocMap Int ModelState) : Option (AssocMap Int ModelState) :=
  mapOpt (fun kv => (cacheState kv.2).map (fun st => (kv.1, st))) states

/-- `SystemState::build`. -/
def SystemState.build (sys : SystemState) : Option SystemState :=
  match computeCaches (ingest sys.states sys.speficication) with
  | none => none
  | some sts => some { states := sts, speficication := sys.speficication, is_built := true }

/-- `SystemState::create_and_build`. -/
def SystemState.create_and_build (links : List StateLink) : Option SystemState :=
  SystemState.build { states := [], speficication := links, is_built := false }

/-- `SystemState::get_state` — the lookup that surfaces an explicit `Option`. -/
def SystemState.get_state (sys : SystemState) (id : Int) : Option ModelState :=
  mfind? sys.states id

/-! ## Embedding of `lib.rs` (the `Agent`) -/

/-- `Agent` — system model handle, current policy, current value table. -/
structure Agent where
  system_state : SystemState
  policy : AssocMap Int (AssocMap String ℚ)
  policy_evaluation : AssocMap Int ℚ
  deriving DecidableEq

/-- The `"_No_Actions_"` sentinel of `deterministic_policy_improvement`. -/
def noActionsStr : String := "_No_Actions_"

/-- `Agent::init_random` — uniform policy per state, zero value table. -/
def Agent.init_random (system_state : SystemState) : Agent :=
  { system_state := system_state
    policy := system_state.states.map (fun kv => (kv.1, kv.2.get_random_policy))
    policy_evaluation := system_state.states.map (fun kv => (kv.1, (0 : ℚ))) }

/-- `Agent::set_polity` (sic). -/
def Agent.set_polity (ag : Agent) (policy : AssocMap Int (AssocMap String ℚ)) : Agent :=
  { ag with policy := policy }

/-- `Agent::get_best_action`.  The outer `Option` is the
`self.policy.get(&state_id).unwrap()` call: `none` means the id is absent from
the policy map and the Rust code panics.  The inner `Option` is the value the
Rust function returns (`max_by` over the state's action map). -/
def Agent.get_best_action (ag : Agent) (state_id : Int) : Option (Option (String × ℚ)) :=
  (mfind? ag.policy state_id).map (fun m => maxByVal m)

/-- One sweep of `Agent::evaluate_policy`'s fixed-point loop, over the
precomputed `static_rewards` (`sr`) and `state_probs` (`sp`): for every state
of the old table, `new = sr[s].unwrap() + gamma * match_mul_sum(sp[s].unwrap(), old)`,
tracking `delta = max |new - old|`.  `none` models the unwrap panics. -/
def sweep? (sr : AssocMap Int ℚ) (sp : AssocMap Int (AssocMap Int ℚ)) (gamma : ℚ)
    (v : AssocMap Int ℚ) : Option (AssocMap Int ℚ × ℚ) :=
  match mapOpt (fun kv =>
      match mfind? sp kv.1, mfind? sr kv.1 with
      | some probs, some r₀ =>
        let nr := r₀ + gamma * match_mul_sum probs v
        some ((kv.1, nr), |nr - kv.2|)
      | _, _ => none) v with
  | none => none
  | some rows => some (rows.map Prod.fst, (rows.map Prod.snd).foldl max 0)

/-- `Agent::evaluate_policy`, instrumented with the number of sweeps the loop
performed.  Precompute `static_rewards` and `state_probs` from the current
policy (each `get_state(id).unwrap()` can panic), then run the loop. -/
def Agent.evaluate_policy_aux? (ag : Agent) (gamma eps : ℚ) (n_iter : Nat) :
    Option (Agent × Nat) :=
  match mapOpt (fun kv => (mfind? ag.system_state.states kv.1).map
      (fun st => (kv.1, match_mul_sum kv.2 st.eval_action_rewards))) ag.policy with
  | none => none
  | some sr =>
    match mapOpt (fun kv => (mfind? ag.system_state.states kv.1).map
        (fun st => (kv.1, st.eval_transition_probs.map
          (fun kv₂ => (kv₂.1, match_mul_sum kv.2 kv₂.2))))) ag.policy with
    | none => none
    | some sp =>
      match loopW (sweep? sr sp gamma) eps n_iter (2 ^ 32) 0 ag.policy_evaluation with
      | none => none
      | some r => some ({ ag with policy_evaluation := r.1 }, r.2)

/-- `Agent::evaluate_policy` (the instrumentation dropped). -/
def Agent.evaluate_policy? (ag : Agent) (gamma eps : ℚ) (n_iter : Nat) : Option Agent :=
  (ag.evaluate_policy_aux? gamma eps n_iter).map Prod.fst

/-- `Agent::calc_best_action`: score every action of the state by
`eval_rewards[a].unwrap() + match_mul_sum(tp[a], value)` (no discount factor
appears in the Rust function), take the max, fall back to the sentinel when
the state has no action.  `none` models the `unwrap` panic on an action
missing from the expected-reward cache. -/
def calc_best_action? (st : ModelState) (default_str : String)
    (value : AssocMap Int ℚ) : Option String :=
  match mapOpt (fun kv =>
      (mfind? st.eval_action_rewards kv.1).map
        (fun ar => (kv.1, ar + match_mul_sum kv.2 value))) st.transition_probs with
  | none => none
  | some scored => some (((maxByVal scored).getD (default_str, 0)).1)

/-- `Agent::calc_best_policy`: probability 1 on `best_action`, 0 on every other
action of the state (keys taken from the expected-reward cache). -/
def calc_best_policy (st : ModelState) (best_action : String) : AssocMap String ℚ :=
  st.eval_action_rewards.map
    (fun kv => (kv.1, if kv.1 = best_action then (1 : ℚ) else 0))

/-- Body of `Agent::deterministic_policy_improvement`'s loop: snapshot
the value table, replace the policy by the greedy one, re-evaluate with a cap
of 100 sweeps, and report the maximum absolute value change versus the
snapshot (`max_by(...).unwrap()` panics on an empty table, hence `none`). -/
def improvBody (gamma eps : ℚ) (ag : Agent) : Option (Agent × ℚ) :=
  match mapOpt (fun kv =>
      (calc_best_action? kv.2 noActionsStr ag.policy_evaluation).map
        (fun ba => (kv.1, calc_best_policy kv.2 ba))) ag.system_state.states with
  | none => none
  | some newPol =>
    match ({ ag with policy := newPol } : Agent).evaluate_policy? gamma eps 100 with
    | none => none
    | some ag' =>
      match mapOpt (fun kv =>
          (mfind? ag'.policy_evaluation kv.1).map (fun nv => |kv.2 - nv|))
          ag.policy_evaluation with
      | none => none
      | some diffs =>
        match maxQList diffs with
        | none => none
        | some md => some (ag', md)

/-- `Agent::deterministic_policy_improvement`, instrumented with the number of
outer iterations performed. -/
def Agent.deterministic_policy_improvement_aux? (ag : Agent) (gamma eps : ℚ)
    (policy_iters eval_iters : Nat) : Option (Agent × Nat) :=
  match ag.evaluate_policy? gamma eps eval_iters with
  | none => none
  | some ag₁ => loopW (improvBody gamma eps) eps policy_iters (2 ^ 32) 0 ag₁

/-- `Agent::deterministic_policy_improvement` (the instrumentation dropped). -/
def Agent.deterministic_policy_improvement? (ag : Agent) (gamma eps : ℚ)
    (policy_iters eval_iters : Nat) : Option Agent :=
  (ag.deterministic_policy_improvement_aux? gamma eps policy_iters eval_iters).map Prod.fst

/-! ## Specification-side definitions

These follow the spec's formulas; the claim theorems compare the embedded code
against them. -/

/-- The per-state model of `s`, with a blank default (only used under
hypotheses that make the lookup succeed). -/
def stateOfD (ag : Agent) (s : Int) : ModelState :=
  (mfind? ag.system_state.states s).getD (ModelState.new s)

/-- The `static_rewards` table `evaluate_policy` precomputes, as a value
(one entry per policy key). -/
def srOf (ag : Agent) : AssocMap Int ℚ :=
  ag.policy.map (fun kv => (kv.1, match_mul_sum kv.2 (stateOfD ag kv.1).eval_action_rewards))

/-- The `state_probs` table `evaluate_policy` precomputes, as a value. -/
def spOf (ag : Agent) : AssocMap Int (AssocMap Int ℚ) :=
  ag.policy.map (fun kv =>
    (kv.1, (stateOfD ag kv.1).eval_transition_probs.map
      (fun kv₂ => (kv₂.1, match_mul_sum kv.2 kv₂.2))))

/-- Spec: `staticReward[s] = Σ_a policy[s][a] · expectedActionReward[s][a]`. -/
def staticRewardSpec (ag : Agent) (s : Int) : ℚ :=
  (((mfind? ag.policy s).getD []).map
    (fun ap => ap.2 * ((mfind? (stateOfD ag s).eval_action_rewards ap.1).getD 0))).sum

/-- Spec: `transitionUnderPolicy[s][s'] = Σ_a policy[s][a] · inboundTransitionByDest[s][s'][a]`. -/
def transUnderPolicySpec (ag : Agent) (s s' : Int) : ℚ :=
  (((mfind? ag.policy s).getD []).map
    (fun ap =>
      ap.2 *
        ((mfind? ((mfind? (stateOfD ag s).eval_transition_probs s').getD []) ap.1).getD 0))).sum

/-- Spec: `newValue[s] = staticReward[s] + γ · Σ_s' transitionUnderPolicy[s][s'] · oldValue[s']`
(the sum ranging over the destinations listed in the state's transpose cache). -/
def newValueSpec (ag : Agent) (gamma : ℚ) (v : AssocMap Int ℚ) (s : Int) : ℚ :=
  staticRewardSpec ag s +
    gamma * ((stateOfD ag s).eval_transition_probs.map
      (fun kv => ((mfind? v kv.1).getD 0) * transUnderPolicySpec ag s kv.1)).sum

/-- Spec: one synchronous (Jacobi) sweep — every state's new value is computed
from the previous table `v` alone. -/
def jacobiSweepSpec (ag : Agent) (gamma : ℚ) (v : AssocMap Int ℚ) : AssocMap Int ℚ :=
  v.map (fun kv => (kv.1, newValueSpec ag gamma v kv.1))

/-- Spec: the maximum absolute per-state change of one sweep from `v`. -/
def jacobiDelta (ag : Agent) (gamma : ℚ) (v : AssocMap Int ℚ) : ℚ :=
  (v.map (fun kv => |newValueSpec ag gamma v kv.1 - kv.2|)).foldl max 0

/-- Spec: bounded-sweep policy evaluation as a pure function — sweep until the
maximum change drops below `eps`, at most `n` sweeps, at least one. -/
def evalPure (ag : Agent) (gamma eps : ℚ) (n : Nat) : Agent :=
  { ag with
    policy_evaluation :=
      loopP (jacobiSweepSpec ag gamma) (jacobiDelta ag gamma) eps n ag.policy_evaluation }

/-- Spec: the greedy deterministic policy — probability 1 on each state's best
action (the empty mapping for a state with no actions). -/
def greedyPolicySpec (ag : Agent) : AssocMap Int (AssocMap String ℚ) :=
  ag.system_state.states.map (fun kv =>
    (kv.1, calc_best_policy kv.2
      ((calc_best_action? kv.2 noActionsStr ag.policy_evaluation).getD noActionsStr)))

/-- Spec: one outer policy-improvement iteration — replace the policy by the
greedy one, then re-evaluate with the fixed internal cap of 100 sweeps. -/
def improveStepSpec (gamma eps : ℚ) (ag : Agent) : Agent :=
  evalPure { ag with policy := greedyPolicySpec ag } gamma eps 100

/-- Spec: the maximum absolute value-table change of one improvement iteration
versus its snapshot. -/
def improveDiffSpec (gamma eps : ℚ) (ag : Agent) : ℚ :=
  maxQListD (ag.policy_evaluation.map (fun kv =>
    |kv.2 - (mfind? (improveStepSpec gamma eps ag).policy_evaluation kv.1).getD 0|))

/-- The score `calc_best_action` actually maximizes:
`expectedActionReward[s][a] + Σ_{s'} actionOutcomes[s][a][s'] · value[s']`
(note: no discount factor). -/
def greedyScore (st : ModelState) (v : AssocMap Int ℚ) (a : String) : ℚ :=
  ((mfind? st.eval_action_rewards a).getD 0) +
    match_mul_sum ((mfind? st.transition_probs a).getD []) v

/-- The score claimed in the spec for greedy selection:
`expectedActionReward[s][a] + γ · Σ_{s'} inboundTransitionByDest[s][s'][a] · value[s']`. -/
def claimActionScore (st : ModelState) (gamma : ℚ) (v : AssocMap Int ℚ) (a : String) : ℚ :=
  ((mfind? st.eval_action_rewards a).getD 0) +
    gamma * (st.eval_transition_probs.map
      (fun kv => ((mfind? kv.2 a).getD 0) * ((mfind? v kv.1).getD 0))).sum

/-- The last specification record with the given `(from, action, to)` triple —
the one whose probability and reward survive the overwriting inserts. -/
def lastMatch (links : List StateLink) (s : Int) (a : String) (d : Int) : Option StateLink :=
  match links with
  | [] => none
  | l :: ls =>
    match lastMatch ls s a d with
    | some r => some r
    | none => if l.prev = s ∧ l.action = a ∧ l.next = d then some l else none

/-- Well-formedness the builder guarantees for every per-state model:
duplicate-free keys everywhere and identical key structure of the outcome and
reward tables. -/
def ModelState.Built (st : ModelState) : Prop :=
  NodupKeys st.transition_probs ∧ NodupKeys st.action_rewards ∧
  (∀ kv ∈ st.transition_probs, NodupKeys kv.2) ∧
  (∀ kv ∈ st.action_rewards, NodupKeys kv.2) ∧
  keysEq st.transition_probs st.action_rewards ∧
  (∀ kv ∈ st.transition_probs, keysEq kv.2 ((mfind? st.action_rewards kv.1).getD []))

instance (st : ModelState) : Decidable st.Built := by
  unfold ModelState.Built; infer_instance

/-- What the agent-level proofs need of a cached (post-build) state: the
expected-reward cache covers every action of the outcome table, and the
transpose cache has duplicate-free destination keys. -/
def ModelState.Cached (st : ModelState) : Prop :=
  (∀ kv ∈ st.transition_probs, (mfind? st.eval_action_rewards kv.1).isSome) ∧
  NodupKeys st.eval_transition_probs ∧
  NodupKeys st.transition_probs

instance (st : ModelState) : Decidable st.Cached := by
  unfold ModelState.Cached; infer_instance

/-- The coverage precondition under which the agent's methods are panic-free:
every value-table id is a policy key, every policy key is a built state, and
every state is well-cached. -/
def Agent.WF (ag : Agent) : Prop :=
  (∀ kv ∈ ag.policy_evaluation, (mfind? ag.policy kv.1).isSome) ∧
  (∀ kv ∈ ag.policy, (mfind? ag.system_state.states kv.1).isSome) ∧
  (∀ kv ∈ ag.system_state.states, ModelState.Cached kv.2)

instance (ag : Agent) : Decidable ag.WF := by
  unfold Agent.WF; infer_instance

/-- The probability stored for `(id, a, d)` in a state table, if any. -/
def findProb (states : AssocMap Int ModelState) (id : Int) (a : String) (d : Int) : Option ℚ :=
  (mfind? states id).bind
    (fun st => (mfind? st.transition_probs a).bind (fun row => mfind? row d))

/-- The reward stored for `(id, a, d)` in a state table, if any. -/
def findRew (states : AssocMap Int ModelState) (id : Int) (a : String) (d : Int) : Option ℚ :=
  (mfind? states id).bind
    (fun st => (mfind? st.action_rewards a).bind (fun row => mfind? row d))

/-! ## Concrete instances used by the witnesses and counterexamples -/

/-- The three-armed bandit of the repository's own tests. -/
def wLinks : List StateLink :=
  [⟨0, 1, "Arm_1", 1, 1⟩, ⟨0, 1, "Arm_2", 1, 2⟩, ⟨0, 1, "Arm_3", 1, 3⟩]

/-- The bandit system, built. -/
def wSys : SystemState := (SystemState.create_and_build wLinks).getD ⟨[], [], false⟩

/-- The bandit agent after uniform initialization. -/
def wAgent : Agent := Agent.init_random wSys

/-- The bandit's state 0. -/
def wSt0 : ModelState := (mfind? wSys.states 0).getD (ModelState.new 0)

/-- The transpose row of `wSt0` for destination 1. -/
def wRow : AssocMap String ℚ := (mfind? wSt0.eval_transition_probs 1).getD []

/-- A specification with a duplicate `(from, action, to)` triple: the later
record must overwrite the earlier one. -/
def dupLinks : List StateLink := [⟨0, 1, "a", 1/2, 5⟩, ⟨0, 1, "a", 1/3, 7⟩]

/-- The duplicate-edge system, built. -/
def dupSys : SystemState := (SystemState.create_and_build dupLinks).getD ⟨[], [], false⟩

/-- The duplicate-edge system's state 0. -/
def dupSt : ModelState := (mfind? dupSys.states 0).getD (ModelState.new 0)

/-- Greedy-discount counterexample model: action `A` earns 10 immediately,
action `B` earns 0 but reaches a state the value table rates 100. -/
def cexLinks : List StateLink := [⟨0, 1, "A", 1, 10⟩, ⟨0, 2, "B", 1, 0⟩]

/-- State 0 of the counterexample model. -/
def cexState : ModelState :=
  ((((SystemState.create_and_build cexLinks).getD ⟨[], [], false⟩)).get_state 0).getD
    (ModelState.new 0)

/-- The value table of the counterexample. -/
def cexValue : AssocMap Int ℚ := [(1, 0), (2, 100)]

/-! ## Lemmas about the map operations -/

section MapLemmas

variable {α β γ : Type} [DecidableEq α]

theorem mfind?_nil (k : α) : mfind? ([] : AssocMap α β) k = none := rfl

theorem mfind?_cons (kv : α × β) (m : AssocMap α β) (k : α) :
    mfind? (kv :: m) k = if kv.1 = k then some kv.2 else mfind? m k := rfl

theorem mfind?_minsert_self (m : AssocMap α β) (k : α) (v : β) :
    mfind? (minsert m k v) k = some v := by
  induction m with
  | nil => simp [minsert, mfind?]
  | cons kv rest ih =>
    by_cases h : kv.1 = k
    · simp [minsert, h, mfind?]
    · simp [minsert, h, mfind?, ih]

theorem mfind?_minsert_ne (m : AssocMap α β) (k k' : α) (v : β) (h : k ≠ k') :
    mfind? (minsert m k v) k' = mfind? m k' := by
  induction m with
  | nil => simp [minsert, mfind?, h]
  | cons kv rest ih =>
    by_cases hk : kv.1 = k
    · simp [minsert, hk, mfind?, h]
    · simp only [minsert, hk, if_false, mfind?_cons, ih]

theorem mfind?_mupdate_self (m : AssocMap α β) (k : α) (d : β) (f : β → β) :
    mfind? (mupdate m k d f) k = some (f ((mfind? m k).getD d)) := by
  simp [mupdate, mfind?_minsert_self]

theorem mfind?_mupdate_ne (m : AssocMap α β) (k k' : α) (d : β) (f : β → β) (h : k ≠ k') :
    mfind? (mupdate m k d f) k' = mfind? m k' := by
  simp [mupdate, mfind?_minsert_ne _ _ _ _ h]

theorem mfind?_morInsert_self (m : AssocMap α β) (k : α) (d : β) :
    mfind? (morInsert m k d) k = some ((mfind? m k).getD d) := by
  unfold morInsert
  cases h : mfind? m k with
  | none => simp [h, mfind?_minsert_self]
  | some v => simp [h]

theorem mfind?_morInsert_ne (m : AssocMap α β) (k k' : α) (d : β) (h : k ≠ k') :
    mfind? (morInsert m k d) k' = mfind? m k' := by
  unfold morInsert
  cases hk : mfind? m k with
  | none => simp [mfind?_minsert_ne _ _ _ _ h]
  | some v => simp

theorem mem_of_mfind?_eq_some {m : AssocMap α β} {k : α} {v : β}
    (h : mfind? m k = some v) : (k, v) ∈ m := by
  induction m with
  | nil => simp [mfind?] at h
  | cons kv rest ih =>
    rw [mfind?_cons] at h
    by_cases hk : kv.1 = k
    · simp [hk] at h
      cases kv
      simp_all
    · simp [hk] at h
      exact List.mem_cons_of_mem _ (ih h)

theorem mfind?_isSome_of_mem {m : AssocMap α β} {kv : α × β} (h : kv ∈ m) :
    (mfind? m kv.1).isSome := by
  induction m with
  | nil => simp at h
  | cons kv' rest ih =>
    rcases List.mem_cons.1 h with h' | h'
    · subst h'; simp [mfind?_cons]
    · rw [mfind?_cons]
      by_cases hk : kv'.1 = kv.1 <;> simp [hk, ih h']

theorem mfind?_eq_some_of_mem_nodup {m : AssocMap α β} {kv : α × β}
    (hnd : NodupKeys m) (h : kv ∈ m) : mfind? m kv.1 = some kv.2 := by
  induction m with
  | nil => simp at h
  | cons kv' rest ih =>
    rw [NodupKeys, List.map_cons, List.nodup_cons] at hnd
    rcases List.mem_cons.1 h with h' | h'
    · subst h'; simp [mfind?_cons]
    · rw [mfind?_cons]
      have hne : kv'.1 ≠ kv.1 := by
        intro he
        exact hnd.1 (he ▸ List.mem_map_of_mem Prod.fst h')
      simp [hne, ih hnd.2 h']

theorem mfind?_isSome_iff_mem_keys (m : AssocMap α β) (k : α) :
    (mfind? m k).isSome ↔ k ∈ m.map Prod.fst := by
  constructor
  · intro h
    obtain ⟨v, hv⟩ := Option.isSome_iff_exists.1 h
    exact List.mem_map_of_mem Prod.fst (mem_of_mfind?_eq_some hv)
  · intro h
    obtain ⟨kv, hm, he⟩ := List.mem_map.1 h
    exact he ▸ mfind?_isSome_of_mem hm

/-- Lookup in a map built by transforming each value in place. -/
theorem mfind?_mapPair (m : AssocMap α β) (g : α → β → γ) (k : α) :
    mfind? (m.map (fun kv => (kv.1, g kv.1 kv.2))) k = (mfind? m k).map (g k) := by
  induction m with
  | nil => simp [mfind?]
  | cons kv rest ih =>
    by_cases h : kv.1 = k
    · subst h; simp [mfind?_cons]
    · simp [mfind?_cons, h, ih]

theorem minsert_map_fst (m : AssocMap α β) (k : α) (v : β) :
    (minsert m k v).map Prod.fst =
      if (mfind? m k).isSome then m.map Prod.fst else m.map Prod.fst ++ [k] := by
  induction m with
  | nil => simp [minsert, mfind?]
  | cons kv rest ih =>
    by_cases h : kv.1 = k
    · simp [minsert, h, mfind?_cons]
    · simp only [minsert, h, if_false, List.map_cons, mfind?_cons, ih]
      by_cases hs : (mfind? rest k).isSome <;> simp [hs]

theorem nodupKeys_minsert (m : AssocMap α β) (k : α) (v : β) (h : NodupKeys m) :
    NodupKeys (minsert m k v) := by
  unfold NodupKeys at *
  rw [minsert_map_fst]
  by_cases hs : (mfind? m k).isSome
  · simpa [hs] using h
  · rw [if_neg hs]
    have hk : k ∉ m.map Prod.fst := fun hm => hs ((mfind?_isSome_iff_mem_keys m k).2 hm)
    rw [List.nodup_append]
    refine ⟨h, List.nodup_singleton k, ?_⟩
    intro a ha hb
    simp at hb
    exact hk (hb ▸ ha)

theorem nodupKeys_mupdate (m : AssocMap α β) (k : α) (d : β) (f : β → β)
    (h : NodupKeys m) : NodupKeys (mupdate m k d f) :=
  nodupKeys_minsert _ _ _ h

theorem nodupKeys_morInsert (m : AssocMap α β) (k : α) (d : β) (h : NodupKeys m) :
    NodupKeys (morInsert m k d) := by
  unfold morInsert
  split
  · exact h
  · exact nodupKeys_minsert _ _ _ h

theorem mfind?_isSome_minsert (m : AssocMap α β) (k k' : α) (v : β) :
    (mfind? (minsert m k v) k').isSome ↔ k = k' ∨ (mfind? m k').isSome := by
  by_cases h : k = k'
  · subst h; simp [mfind?_minsert_self]
  · simp [mfind?_minsert_ne _ _ _ _ h, h]

theorem mfind?_isSome_mupdate (m : AssocMap α β) (k k' : α) (d : β) (f : β → β) :
    (mfind? (mupdate m k d f) k').isSome ↔ k = k' ∨ (mfind? m k').isSome :=
  mfind?_isSome_minsert _ _ _ _

theorem mfind?_isSome_morInsert (m : AssocMap α β) (k k' : α) (d : β) :
    (mfind? (morInsert m k d) k').isSome ↔ k = k' ∨ (mfind? m k').isSome := by
  unfold morInsert
  split
  · rename_i hs
    by_cases h : k = k'
    · subst h; simp [hs]
    · simp [h]
  · exact mfind?_isSome_minsert _ _ _ _

theorem morInsert_of_isSome {m : AssocMap α β} {k : α} (d : β)
    (h : (mfind? m k).isSome) : morInsert m k d = m := by
  unfold morInsert
  simp [h]

end MapLemmas

/-! ## Lemmas about `mapOpt`, `maxByVal`, `maxQList` -/

section MapOptLemmas

variable {α β : Type}

theorem mapOpt_eq_some_of {f : α → Option β} {g : α → β} :
    ∀ {l : List α}, (∀ x ∈ l, f x = some (g x)) → mapOpt f l = some (l.map g)
  | [], _ => rfl
  | x :: xs, h => by
    have hx := h x (List.mem_cons_self x xs)
    have hxs := mapOpt_eq_some_of (fun y hy => h y (List.mem_cons_of_mem x hy))
    simp [mapOpt, hx, hxs]

theorem mapOpt_eq_none_of {f : α → Option β} {x : α} :
    ∀ {l : List α}, x ∈ l → f x = none → mapOpt f l = none := by
  intro l
  induction l with
  | nil => intro h; simp at h
  | cons y ys ih =>
    intro hm hx
    rcases List.mem_cons.1 hm with h | h
    · subst h; simp [mapOpt, hx]
    · cases hfy : f y <;> simp [mapOpt, hfy, ih h hx]

theorem mapOpt_isSome_of {f : α → Option β} :
    ∀ {l : List α}, (∀ x ∈ l, (f x).isSome) → (mapOpt f l).isSome
  | [], _ => by simp [mapOpt]
  | x :: xs, h => by
    obtain ⟨y, hy⟩ := Option.isSome_iff_exists.1 (h x (List.mem_cons_self x xs))
    have hxs := mapOpt_isSome_of (fun z hz => h z (List.mem_cons_of_mem x hz))
    obtain ⟨ys, hys⟩ := Option.isSome_iff_exists.1 hxs
    simp [mapOpt, hy, hys]

theorem mapOpt_all_isSome {f : α → Option β} :
    ∀ {l : List α} {l' : List β}, mapOpt f l = some l' → ∀ x ∈ l, (f x).isSome := by
  intro l
  induction l with
  | nil => intro l' _ x hx; simp at hx
  | cons y ys ih =>
    intro l' h x hx
    cases hfy : f y with
    | none => simp [mapOpt, hfy] at h
    | some z =>
      cases hys : mapOpt f ys with
      | none => simp [mapOpt, hfy, hys] at h
      | some zs =>
        rcases List.mem_cons.1 hx with hxe | hxm
        · subst hxe; simp [hfy]
        · exact ih hys x hxm

/-- Lookup in the result of a `mapOpt` that rebuilds key-value pairs through a
value-level partial function. -/
theorem mapOpt_pair_lookup [DecidableEq α] {γ : Type} {h : β → Option γ} :
    ∀ {l : AssocMap α β} {l' : AssocMap α γ},
      mapOpt (fun kv => (h kv.2).map (fun w => (kv.1, w))) l = some l' →
      ∀ k, mfind? l' k = (mfind? l k).bind h := by
  intro l
  induction l with
  | nil =>
    intro l' hl k
    simp [mapOpt] at hl
    subst hl
    simp [mfind?]
  | cons kv rest ih =>
    intro l' hl k
    cases hv : h kv.2 with
    | none => simp [mapOpt, hv] at hl
    | some w =>
      cases hrest : mapOpt (fun kv => (h kv.2).map (fun w => (kv.1, w))) rest with
      | none => simp [mapOpt, hv, hrest] at hl
      | some rest' =>
        simp only [mapOpt, hv, hrest, Option.map_some'] at hl
        rw [Option.some_inj] at hl
        subst hl
        rw [mfind?_cons, mfind?_cons]
        by_cases hk : kv.1 = k
        · simp [hk, hv]
        · simp [hk, ih hrest k]

theorem maxByVal_eq_none_iff (m : AssocMap α ℚ) : maxByVal m = none ↔ m = [] := by
  cases m with
  | nil => simp [maxByVal]
  | cons kv rest =>
    simp only [maxByVal]
    cases h : maxByVal rest with
    | none => simp
    | some best =>
      by_cases hlt : best.2 < kv.2 <;> simp [hlt]

theorem maxByVal_spec {m : AssocMap α ℚ} {p : α × ℚ} (h : maxByVal m = some p) :
    p ∈ m ∧ ∀ q ∈ m, q.2 ≤ p.2 := by
  induction m generalizing p with
  | nil => simp [maxByVal] at h
  | cons kv rest ih =>
    simp only [maxByVal] at h
    cases hr : maxByVal rest with
    | none =>
      rw [hr] at h
      have hempty : rest = [] := (maxByVal_eq_none_iff rest).1 hr
      subst hempty
      simp at h
      subst h
      simp
    | some best =>
      rw [hr] at h
      obtain ⟨hmem, hmax⟩ := ih hr
      by_cases hlt : best.2 < kv.2
      · simp [hlt] at h
        subst h
        refine ⟨List.mem_cons_self _ _, ?_⟩
        intro q hq
        rcases List.mem_cons.1 hq with h' | h'
        · subst h'; exact le_refl _
        · exact le_of_lt (lt_of_le_of_lt (hmax q h') hlt)
      · simp [hlt] at h
        subst h
        refine ⟨List.mem_cons_of_mem _ hmem, ?_⟩
        intro q hq
        rcases List.mem_cons.1 hq with h' | h'
        · subst h'; exact le_of_not_lt hlt
        · exact hmax q h'

theorem maxQList_eq_some (x : ℚ) (xs : List ℚ) :
    maxQList (x :: xs) = some (maxQListD (x :: xs)) := rfl

theorem maxQList_eq_some_of_ne {l : List ℚ} (h : l ≠ []) :
    maxQList l = some (maxQListD l) := by
  cases l with
  | nil => exact absurd rfl h
  | cons x xs => rfl

end MapOptLemmas

/-! ## Lemmas about the loop combinators -/

section LoopLemmas

variable {σ : Type} {body : σ → Option (σ × ℚ)} {step : σ → σ} {dlt : σ → ℚ}

/-- A panic in the first loop body aborts the loop. -/
theorem loopW_none {eps : ℚ} {cap : Nat} {fuel counter : Nat} {s : σ}
    (hf : 1 ≤ fuel) (h : body s = none) :
    loopW body eps cap fuel counter s = none := by
  cases fuel with
  | zero => omega
  | succ f => simp [loopW, h]

/-- As long as the body succeeds and behaves as `step`/`dlt`, the loop returns
some iterate of `step` (and performs at least one iteration when it may). -/
theorem loopW_iter {Inv : σ → Prop} (eps : ℚ) (cap : Nat)
    (hB : ∀ s, Inv s → body s = some (step s, dlt s))
    (hI : ∀ s, Inv s → Inv (step s)) :
    ∀ (fuel counter : Nat) (s : σ), Inv s →
      ∃ k, loopW body eps cap fuel counter s = some (step^[k] s, k) ∧
        (1 ≤ fuel → 1 ≤ k) := by
  intro fuel
  induction fuel with
  | zero =>
    intro counter s _
    exact ⟨0, rfl, by omega⟩
  | succ f ih =>
    intro counter s hs
    rw [loopW, hB s hs]
    by_cases hbr : dlt s < eps ∨ (counter + 1) % 2 ^ 32 = cap
    · refine ⟨1, ?_, by omega⟩
      simp only [hbr, if_true]
      rfl
    · obtain ⟨k, hk, _⟩ := ih ((counter + 1) % 2 ^ 32) (step s) (hI s hs)
      refine ⟨k + 1, ?_, by omega⟩
      simp only [hbr, if_false, hk]
      rw [Function.iterate_succ_apply]

/-- Before the `u32` counter can wrap, the loop agrees with its pure reading
`loopP`, running for `cap - counter` more iterations at most. -/
theorem loopW_pure {Inv : σ → Prop} (eps : ℚ) (cap : Nat)
    (hB : ∀ s, Inv s → body s = some (step s, dlt s))
    (hI : ∀ s, Inv s → Inv (step s)) :
    ∀ (fuel counter : Nat) (s : σ), Inv s → counter < cap → cap ≤ counter + fuel →
      cap < 2 ^ 32 →
      loopW body eps cap fuel counter s =
        some (loopP step dlt eps (cap - counter) s,
          loopPCount step dlt eps (cap - counter) s) := by
  intro fuel
  induction fuel with
  | zero => intro counter s _ h1 h2 _; omega
  | succ f ih =>
    intro counter s hs h1 h2 h3
    rw [loopW, hB s hs]
    have hmod : (counter + 1) % 2 ^ 32 = counter + 1 := Nat.mod_eq_of_lt (by omega)
    have hsub : cap - counter = (cap - (counter + 1)) + 1 := by omega
    by_cases hd : dlt s < eps
    · have hbr : dlt s < eps ∨ (counter + 1) % 2 ^ 32 = cap := Or.inl hd
      simp only [hbr, if_true]
      rw [hsub]
      simp [loopP, loopPCount, hd]
    · by_cases hcap : counter + 1 = cap
      · have hbr : dlt s < eps ∨ (counter + 1) % 2 ^ 32 = cap :=
          Or.inr (by rw [hmod]; exact hcap)
        simp only [hbr, if_true]
        have : cap - counter = 1 := by omega
        rw [this]
        simp [loopP, loopPCount, hd]
      · have hbr : ¬(dlt s < eps ∨ (counter + 1) % 2 ^ 32 = cap) := by
          rw [hmod]; simp [hd, hcap]
        simp only [hbr, if_false, hmod]
        rw [ih (counter + 1) (step s) (hI s hs) (by omega) (by omega) h3]
        have hP : loopP step dlt eps (cap - counter) s =
            loopP step dlt eps (cap - (counter + 1)) (step s) := by
          rw [hsub, loopP]
          simp [hd]
        have hC : loopPCount step dlt eps (cap - counter) s =
            loopPCount step dlt eps (cap - (counter + 1)) (step s) + 1 := by
          rw [hsub, loopPCount]
          simp [hd]
        rw [hP, hC]
        have hbr' : ¬(dlt s < eps ∨ counter + 1 = cap) := by simp [hd, hcap]
        rw [if_neg hbr']

theorem loopP_eq_iterate {eps : ℚ} :
    ∀ (fuel : Nat) (s : σ),
      loopP step dlt eps fuel s = step^[loopPCount step dlt eps fuel s] s := by
  intro fuel
  induction fuel with
  | zero => intro s; rfl
  | succ f ih =>
    intro s
    by_cases hd : dlt s < eps
    · simp [loopP, loopPCount, hd]
    · simp only [loopP, loopPCount, hd, if_false]
      rw [ih (step s), Function.iterate_succ_apply]

theorem loopPCount_le {eps : ℚ} : ∀ (fuel : Nat) (s : σ), loopPCount step dlt eps fuel s ≤ fuel := by
  intro fuel
  induction fuel with
  | zero => intro s; simp [loopPCount]
  | succ f ih =>
    intro s
    by_cases hd : dlt s < eps
    · simp [loopPCount, hd]
    · simp only [loopPCount, hd, if_false]
      have := ih (step s)
      omega

theorem loopPCount_pos {eps : ℚ} (fuel : Nat) (s : σ) (h : 1 ≤ fuel) :
    1 ≤ loopPCount step dlt eps fuel s := by
  cases fuel with
  | zero => omega
  | succ f =>
    by_cases hd : dlt s < eps <;> simp [loopPCount, hd]

/-- The loop stops because the measure dropped below `eps` or because the cap
was reached. -/
theorem loopPCount_stop {eps : ℚ} :
    ∀ (fuel : Nat) (s : σ), 1 ≤ fuel →
      dlt (step^[loopPCount step dlt eps fuel s - 1] s) < eps ∨
        loopPCount step dlt eps fuel s = fuel := by
  intro fuel
  induction fuel with
  | zero => intro s h; omega
  | succ f ih =>
    intro s _
    by_cases hd : dlt s < eps
    · left
      simp [loopPCount, hd]
    · simp only [loopPCount, hd, if_false]
      cases f with
      | zero => right; simp [loopPCount]
      | succ f' =>
        rcases ih (step s) (by omega) with h | h
        · left
          have hpos : 1 ≤ loopPCount step dlt eps (f' + 1) (step s) :=
            loopPCount_pos (f' + 1) (step s) (by omega)
          have : step^[loopPCount step dlt eps (f' + 1) (step s) + 1 - 1] s =
              step^[loopPCount step dlt eps (f' + 1) (step s) - 1] (step s) := by
            rw [Nat.add_sub_cancel]
            rw [show loopPCount step dlt eps (f' + 1) (step s) =
              (loopPCount step dlt eps (f' + 1) (step s) - 1) + 1 by omega]
            rw [Function.iterate_succ_apply, Nat.add_sub_cancel]
          rw [this]
          exact h
        · right; omega

/-- The loop did not stop any earlier: every strictly earlier measure was at
least `eps`. -/
theorem loopPCount_min {eps : ℚ} :
    ∀ (fuel : Nat) (s : σ) (j : Nat), j + 1 < loopPCount step dlt eps fuel s →
      ¬ dlt (step^[j] s) < eps := by
  intro fuel
  induction fuel with
  | zero => intro s j h; simp [loopPCount] at h
  | succ f ih =>
    intro s j h
    by_cases hd : dlt s < eps
    · simp [loopPCount, hd] at h
    · simp only [loopPCount, hd, if_false] at h
      cases j with
      | zero => simpa using hd
      | succ j' =>
        rw [Function.iterate_succ_apply]
        exact ih (step s) j' (by omega)

end LoopLemmas

/-! ## Lemmas about the graph builder -/

section BuildLemmas

theorem mem_minsert_nodup {α β : Type} [DecidableEq α] {m : AssocMap α β} {k : α} {v : β}
    {kv : α × β} (hnd : NodupKeys m) (h : kv ∈ minsert m k v) :
    kv = (k, v) ∨ (kv ∈ m ∧ kv.1 ≠ k) := by
  induction m with
  | nil => simp [minsert] at h; simp [h]
  | cons kv' rest ih =>
    rw [NodupKeys, List.map_cons, List.nodup_cons] at hnd
    by_cases hk : kv'.1 = k
    · rw [minsert, if_pos hk] at h
      rcases List.mem_cons.1 h with h' | h'
      · exact Or.inl h'
      · right
        refine ⟨List.mem_cons_of_mem _ h', ?_⟩
        intro he
        exact hnd.1 (hk ▸ he ▸ List.mem_map_of_mem Prod.fst h')
    · rw [minsert, if_neg hk] at h
      rcases List.mem_cons.1 h with h' | h'
      · subst h'
        exact Or.inr ⟨List.mem_cons_self _ _, hk⟩
      · rcases ih hnd.2 h' with h'' | h''
        · exact Or.inl h''
        · exact Or.inr ⟨List.mem_cons_of_mem _ h''.1, h''.2⟩

theorem keysEq_nil {α β γ : Type} [DecidableEq α] :
    keysEq ([] : AssocMap α β) ([] : AssocMap α γ) := by
  constructor <;> intro kv h <;> simp at h

theorem keysEq_minsert {α β γ : Type} [DecidableEq α] {m₁ : AssocMap α β} {m₂ : AssocMap α γ}
    (h : keysEq m₁ m₂) (k : α) (v : β) (w : γ) :
    keysEq (minsert m₁ k v) (minsert m₂ k w) := by
  constructor
  · intro kv hm
    rw [mfind?_isSome_minsert]
    by_cases hk : kv.1 = k
    · exact Or.inl hk.symm
    · right
      have : (mfind? m₁ kv.1).isSome := by
        rcases Option.isSome_iff_exists.1
          (mfind?_isSome_of_mem hm) with ⟨u, hu⟩
        rw [mfind?_minsert_ne _ _ _ _ (fun he => hk he.symm)] at hu
        simp [hu]
      obtain ⟨u, hu⟩ := Option.isSome_iff_exists.1 this
      exact h.1 (kv.1, u) (mem_of_mfind?_eq_some hu)
  · intro kv hm
    rw [mfind?_isSome_minsert]
    by_cases hk : kv.1 = k
    · exact Or.inl hk.symm
    · right
      have : (mfind? m₂ kv.1).isSome := by
        rcases Option.isSome_iff_exists.1
          (mfind?_isSome_of_mem hm) with ⟨u, hu⟩
        rw [mfind?_minsert_ne _ _ _ _ (fun he => hk he.symm)] at hu
        simp [hu]
      obtain ⟨u, hu⟩ := Option.isSome_iff_exists.1 this
      exact h.2 (kv.1, u) (mem_of_mfind?_eq_some hu)

/-- What `ingestOne` leaves at each state id. -/
theorem mfind?_ingestOne (states : AssocMap Int ModelState) (l : StateLink) (id : Int) :
    mfind? (ingestOne states l) id =
      if l.prev = id then
        some (((mfind? states id).getD (ModelState.new id)).insert_link
          l.next l.action l.prob l.reward)
      else if l.next = id ∧ mfind? states id = none then some (ModelState.new id)
      else mfind? states id := by
  unfold ingestOne
  by_cases hp : l.prev = id
  · subst hp
    rw [if_pos rfl]
    have h₁ : mfind? (mupdate states l.prev (ModelState.new l.prev)
        (fun st => st.insert_link l.next l.action l.prob l.reward)) l.prev =
        some (((mfind? states l.prev).getD (ModelState.new l.prev)).insert_link
          l.next l.action l.prob l.reward) := mfind?_mupdate_self _ _ _ _
    by_cases hn : l.next = l.prev
    · set m := mupdate states l.prev (ModelState.new l.prev)
        (fun st => st.insert_link l.next l.action l.prob l.reward) with hm
      have hs : (mfind? m l.next).isSome := by
        rw [hn, hm, h₁]; simp
      rw [morInsert_of_isSome _ hs, hm, h₁]
    · rw [mfind?_morInsert_ne _ _ _ _ hn, h₁]
  · rw [if_neg hp]
    have h₁ : mfind? (mupdate states l.prev (ModelState.new l.prev)
        (fun st => st.insert_link l.next l.action l.prob l.reward)) id =
        mfind? states id := mfind?_mupdate_ne _ _ _ _ _ hp
    by_cases hn : l.next = id
    · subst hn
      rw [mfind?_morInsert_self, h₁]
      cases h : mfind? states l.next with
      | none => simp [h]
      | some st => simp [h]
    · rw [mfind?_morInsert_ne _ _ _ _ hn, h₁]
      rw [if_neg (fun hc => hn hc.1)]

theorem findProb_ingestOne (states : AssocMap Int ModelState) (l : StateLink)
    (id : Int) (a : String) (d : Int) :
    findProb (ingestOne states l) id a d =
      if l.prev = id ∧ l.action = a ∧ l.next = d then some l.prob
      else findProb states id a d := by
  unfold findProb
  rw [mfind?_ingestOne]
  by_cases hp : l.prev = id
  · rw [if_pos hp, Option.some_bind]
    set st := (mfind? states id).getD (ModelState.new id) with hst
    have htp : (st.insert_link l.next l.action l.prob l.reward).transition_probs =
        mupdate st.transition_probs l.action [] (fun row => minsert row l.next l.prob) := rfl
    rw [htp]
    by_cases ha : l.action = a
    · subst ha
      rw [mfind?_mupdate_self, Option.some_bind]
      by_cases hd : l.next = d
      · subst hd
        rw [mfind?_minsert_self, if_pos ⟨hp, rfl, rfl⟩]
      · rw [mfind?_minsert_ne _ _ _ _ hd, if_neg (fun hc => hd hc.2.2)]
        cases hs : mfind? states id with
        | none =>
          simp only [hs, Option.getD_none] at hst
          rw [hst]
          simp [ModelState.new, mfind?]
        | some st₀ =>
          simp only [hs, Option.getD_some] at hst
          rw [hst, Option.some_bind]
          cases hrow : mfind? st₀.transition_probs l.action with
          | none => simp [hrow, mfind?]
          | some row => simp [hrow]
    · rw [mfind?_mupdate_ne _ _ _ _ _ ha, if_neg (fun hc => ha hc.2.1)]
      cases hs : mfind? states id with
      | none =>
        simp only [hs, Option.getD_none] at hst
        rw [hst]
        simp [ModelState.new, mfind?]
      | some st₀ =>
        simp only [hs, Option.getD_some] at hst
        rw [hst, Option.some_bind]
  · rw [if_neg hp]
    by_cases hn : l.next = id ∧ mfind? states id = none
    · rw [if_pos hn, Option.some_bind, if_neg (fun hc => hp hc.1), hn.2]
      simp [ModelState.new, mfind?]
    · rw [if_neg hn, if_neg (fun hc => hp hc.1)]

theorem findRew_ingestOne (states : AssocMap Int ModelState) (l : StateLink)
    (id : Int) (a : String) (d : Int) :
    findRew (ingestOne states l) id a d =
      if l.prev = id ∧ l.action = a ∧ l.next = d then some l.reward
      else findRew states id a d := by
  unfold findRew
  rw [mfind?_ingestOne]
  by_cases hp : l.prev = id
  · rw [if_pos hp, Option.some_bind]
    set st := (mfind? states id).getD (ModelState.new id) with hst
    have htp : (st.insert_link l.next l.action l.prob l.reward).action_rewards =
        mupdate st.action_rewards l.action [] (fun row => minsert row l.next l.reward) := rfl
    rw [htp]
    by_cases ha : l.action = a
    · subst ha
      rw [mfind?_mupdate_self, Option.some_bind]
      by_cases hd : l.next = d
      · subst hd
        rw [mfind?_minsert_self, if_pos ⟨hp, rfl, rfl⟩]
      · rw [mfind?_minsert_ne _ _ _ _ hd, if_neg (fun hc => hd hc.2.2)]
        cases hs : mfind? states id with
        | none =>
          simp only [hs, Option.getD_none] at hst
          rw [hst]
          simp [ModelState.new, mfind?]
        | some st₀ =>
          simp only [hs, Option.getD_some] at hst
          rw [hst, Option.some_bind]
          cases hrow : mfind? st₀.action_rewards l.action with
          | none => simp [hrow, mfind?]
          | some row => simp [hrow]
    · rw [mfind?_mupdate_ne _ _ _ _ _ ha, if_neg (fun hc => ha hc.2.1)]
      cases hs : mfind? states id with
      | none =>
        simp only [hs, Option.getD_none] at hst
        rw [hst]
        simp [ModelState.new, mfind?]
      | some st₀ =>
        simp only [hs, Option.getD_some] at hst
        rw [hst, Option.some_bind]
  · rw [if_neg hp]
    by_cases hn : l.next = id ∧ mfind? states id = none
    · rw [if_pos hn, Option.some_bind, if_neg (fun hc => hp hc.1), hn.2]
      simp [ModelState.new, mfind?]
    · rw [if_neg hn, if_neg (fun hc => hp hc.1)]

theorem findProb_ingest (id : Int) (a : String) (d : Int) :
    ∀ (ls : List StateLink) (states : AssocMap Int ModelState),
      findProb (ingest states ls) id a d =
        match lastMatch ls id a d with
        | some r => some r.prob
        | none => findProb states id a d := by
  intro ls
  induction ls with
  | nil => intro states; rfl
  | cons l ls ih =>
    intro states
    rw [ingest, ih, lastMatch]
    cases h : lastMatch ls id a d with
    | some r => simp
    | none =>
      simp only
      rw [findProb_ingestOne]
      by_cases hc : l.prev = id ∧ l.action = a ∧ l.next = d
      · rw [if_pos hc, if_pos hc]
      · rw [if_neg hc, if_neg hc]

theorem findRew_ingest (id : Int) (a : String) (d : Int) :
    ∀ (ls : List StateLink) (states : AssocMap Int ModelState),
      findRew (ingest states ls) id a d =
        match lastMatch ls id a d with
        | some r => some r.reward
        | none => findRew states id a d := by
  intro ls
  induction ls with
  | nil => intro states; rfl
  | cons l ls ih =>
    intro states
    rw [ingest, ih, lastMatch]
    cases h : lastMatch ls id a d with
    | some r => simp
    | none =>
      simp only
      rw [findRew_ingestOne]
      by_cases hc : l.prev = id ∧ l.action = a ∧ l.next = d
      · rw [if_pos hc, if_pos hc]
      · rw [if_neg hc, if_neg hc]

theorem mem_ingestOne (states : AssocMap Int ModelState) (l : StateLink) (id : Int) :
    (mfind? (ingestOne states l) id).isSome ↔
      (mfind? states id).isSome ∨ l.prev = id ∨ l.next = id := by
  rw [mfind?_ingestOne]
  by_cases hp : l.prev = id
  · simp [hp]
  · rw [if_neg hp]
    by_cases hn : l.next = id ∧ mfind? states id = none
    · simp [hn.1, hn.2]
    · rw [if_neg hn]
      by_cases hx : l.next = id
      · have : (mfind? states id).isSome := by
          cases h : mfind? states id with
          | none => exact absurd ⟨hx, h⟩ hn
          | some st => simp
        simp [hx, hp, this]
      · simp [hp, hx]

theorem mem_ingest (id : Int) :
    ∀ (ls : List StateLink) (states : AssocMap Int ModelState),
      (mfind? (ingest states ls) id).isSome ↔
        (mfind? states id).isSome ∨ ∃ l ∈ ls, l.prev = id ∨ l.next = id := by
  intro ls
  induction ls with
  | nil => intro states; simp [ingest]
  | cons l ls ih =>
    intro states
    rw [ingest, ih, mem_ingestOne]
    constructor
    · rintro ((h | h) | h)
      · exact Or.inl h
      · exact Or.inr ⟨l, List.mem_cons_self _ _, h⟩
      · obtain ⟨l', hl', h'⟩ := h
        exact Or.inr ⟨l', List.mem_cons_of_mem _ hl', h'⟩
    · rintro (h | ⟨l', hl', h'⟩)
      · exact Or.inl (Or.inl h)
      · rcases List.mem_cons.1 hl' with he | hm
        · subst he; exact Or.inl (Or.inr h')
        · exact Or.inr ⟨l', hm, h'⟩

/-- A state never used as a `from` keeps empty outcome/reward tables through
ingestion. -/
theorem notFrom_ingest (id : Int) :
    ∀ (ls : List StateLink) (states : AssocMap Int ModelState),
      (∀ l ∈ ls, l.prev ≠ id) →
      (∀ st, mfind? states id = some st →
        st.transition_probs = [] ∧ st.action_rewards = []) →
      ∀ st, mfind? (ingest states ls) id = some st →
        st.transition_probs = [] ∧ st.action_rewards = [] := by
  intro ls
  induction ls with
  | nil => intro states _ hbase st h; exact hbase st h
  | cons l ls ih =>
    intro states hls hbase st h
    refine ih (ingestOne states l) (fun l' hl' => hls l' (List.mem_cons_of_mem _ hl')) ?_ st h
    intro st' h'
    rw [mfind?_ingestOne, if_neg (hls l (List.mem_cons_self _ _))] at h'
    by_cases hn : l.next = id ∧ mfind? states id = none
    · rw [if_pos hn] at h'
      rw [Option.some_inj] at h'
      subst h'
      exact ⟨rfl, rfl⟩
    · rw [if_neg hn] at h'
      exact hbase st' h'

/-! ### The builder's shape invariant -/

theorem mem_minsert {α β : Type} [DecidableEq α] {m : AssocMap α β} {k : α} {v : β}
    {kv : α × β} (h : kv ∈ minsert m k v) : kv = (k, v) ∨ kv ∈ m := by
  induction m with
  | nil => simp [minsert] at h; simp [h]
  | cons kv' rest ih =>
    by_cases hk : kv'.1 = k
    · rw [minsert, if_pos hk] at h
      rcases List.mem_cons.1 h with h' | h'
      · exact Or.inl h'
      · exact Or.inr (List.mem_cons_of_mem _ h')
    · rw [minsert, if_neg hk] at h
      rcases List.mem_cons.1 h with h' | h'
      · exact Or.inr (h' ▸ List.mem_cons_self _ _)
      · rcases ih h' with h'' | h''
        · exact Or.inl h''
        · exact Or.inr (List.mem_cons_of_mem _ h'')

theorem built_new (id : Int) : (ModelState.new id).Built := by
  refine ⟨?_, ?_, ?_, ?_, ?_, ?_⟩ <;> simp [ModelState.new, NodupKeys, keysEq]

theorem built_insert_link {st : ModelState} (hB : st.Built) (n : Int) (a : String)
    (p r : ℚ) : (st.insert_link n a p r).Built := by
  obtain ⟨hB1, hB2, hB3, hB4, hB5, hB6⟩ := hB
  have htp : (st.insert_link n a p r).transition_probs =
      minsert st.transition_probs a
        (minsert ((mfind? st.transition_probs a).getD []) n p) := rfl
  have har : (st.insert_link n a p r).action_rewards =
      minsert st.action_rewards a
        (minsert ((mfind? st.action_rewards a).getD []) n r) := rfl
  have hrowtp : NodupKeys ((mfind? st.transition_probs a).getD []) := by
    cases h : mfind? st.transition_probs a with
    | none => simp [NodupKeys]
    | some rt => exact hB3 (a, rt) (mem_of_mfind?_eq_some h)
  have hrowar : NodupKeys ((mfind? st.action_rewards a).getD []) := by
    cases h : mfind? st.action_rewards a with
    | none => simp [NodupKeys]
    | some rt => exact hB4 (a, rt) (mem_of_mfind?_eq_some h)
  have hroweq : keysEq ((mfind? st.transition_probs a).getD [])
      ((mfind? st.action_rewards a).getD []) := by
    cases h : mfind? st.transition_probs a with
    | some rt =>
      have := hB6 (a, rt) (mem_of_mfind?_eq_some h)
      simpa using this
    | none =>
      cases h' : mfind? st.action_rewards a with
      | none => simpa using keysEq_nil
      | some ra =>
        have := hB5.2 (a, ra) (mem_of_mfind?_eq_some h')
        simp at this
        rw [h] at this
        simp at this
  refine ⟨?_, ?_, ?_, ?_, ?_, ?_⟩
  · rw [htp]; exact nodupKeys_minsert _ _ _ hB1
  · rw [har]; exact nodupKeys_minsert _ _ _ hB2
  · rw [htp]
    intro kv hkv
    rcases mem_minsert_nodup hB1 hkv with h | h
    · rw [h]; exact nodupKeys_minsert _ _ _ hrowtp
    · exact hB3 kv h.1
  · rw [har]
    intro kv hkv
    rcases mem_minsert_nodup hB2 hkv with h | h
    · rw [h]; exact nodupKeys_minsert _ _ _ hrowar
    · exact hB4 kv h.1
  · rw [htp, har]; exact keysEq_minsert hB5 _ _ _
  · rw [htp]
    intro kv hkv
    rcases mem_minsert_nodup hB1 hkv with h | h
    · rw [h]
      rw [har]
      simp only [mfind?_minsert_self, Option.getD_some]
      exact keysEq_minsert hroweq _ _ _
    · rw [har, mfind?_minsert_ne _ _ _ _ (fun he => h.2 he.symm)]
      exact hB6 kv h.1

theorem built_ingestOne {states : AssocMap Int ModelState}
    (hs : ∀ kv ∈ states, ModelState.Built kv.2) (l : StateLink) :
    ∀ kv ∈ ingestOne states l, ModelState.Built kv.2 := by
  intro kv hkv
  simp only [ingestOne] at hkv
  have hbase : (((mfind? states l.prev).getD (ModelState.new l.prev))).Built := by
    cases h : mfind? states l.prev with
    | none => simpa using built_new l.prev
    | some st => simpa using hs (l.prev, st) (mem_of_mfind?_eq_some h)
  have hstep : ∀ kv' ∈ mupdate states l.prev (ModelState.new l.prev)
      (fun st => st.insert_link l.next l.action l.prob l.reward), ModelState.Built kv'.2 := by
    intro kv' hkv'
    rcases mem_minsert hkv' with h | h
    · rw [h]; exact built_insert_link hbase _ _ _ _
    · exact hs kv' h
  unfold morInsert at hkv
  split at hkv
  · exact hstep kv hkv
  · rcases mem_minsert hkv with h | h
    · rw [h]; exact built_new l.next
    · exact hstep kv h

theorem built_ingest :
    ∀ (ls : List StateLink) (states : AssocMap Int ModelState),
      (∀ kv ∈ states, ModelState.Built kv.2) →
      ∀ kv ∈ ingest states ls, ModelState.Built kv.2 := by
  intro ls
  induction ls with
  | nil => intro states hs; exact hs
  | cons l ls ih =>
    intro states hs
    exact ih (ingestOne states l) (built_ingestOne hs l)

theorem calcEvalRewards?_isSome_of_built {st : ModelState} (hB : st.Built) :
    (calcEvalRewards? st).isSome := by
  obtain ⟨hB1, hB2, hB3, hB4, hB5, hB6⟩ := hB
  apply mapOpt_isSome_of
  intro kv hkv
  obtain ⟨probs, hprobs⟩ := Option.isSome_iff_exists.1 (hB5.2 kv hkv)
  rw [hprobs]
  simp only
  have hinner : ∀ dr ∈ kv.2, ((mfind? probs dr.1).map (fun p => p * dr.2)).isSome := by
    intro dr hdr
    have hmem : (kv.1, probs) ∈ st.transition_probs := mem_of_mfind?_eq_some hprobs
    have hkeys := hB6 (kv.1, probs) hmem
    simp only at hkeys
    have har : mfind? st.action_rewards kv.1 = some kv.2 :=
      mfind?_eq_some_of_mem_nodup hB2 hkv
    rw [har] at hkeys
    simp only [Option.getD_some] at hkeys
    have := hkeys.2 dr hdr
    simp [this]
  obtain ⟨terms, hterms⟩ := Option.isSome_iff_exists.1 (mapOpt_isSome_of hinner)
  rw [hterms]
  simp

theorem mapOpt_pair_keys {α β γ : Type} [DecidableEq α] {f : α × β → Option (α × γ)} :
    ∀ {l : AssocMap α β} {l' : AssocMap α γ},
      (∀ kv ∈ l, ∃ w, f kv = some (kv.1, w)) → mapOpt f l = some l' →
      ∀ x, (mfind? l' x).isSome ↔ (mfind? l x).isSome := by
  intro l
  induction l with
  | nil =>
    intro l' _ h x
    simp only [mapOpt] at h
    rw [Option.some_inj] at h
    subst h
    rfl
  | cons kv rest ih =>
    intro l' hf h x
    obtain ⟨w, hw⟩ := hf kv (List.mem_cons_self _ _)
    cases hrest : mapOpt f rest with
    | none => simp [mapOpt, hw, hrest] at h
    | some rest' =>
      rw [mapOpt, hw, hrest] at h
      simp only at h
      rw [Option.some_inj] at h
      subst h
      rw [mfind?_cons, mfind?_cons]
      by_cases hk : kv.1 = x
      · simp [hk]
      · simp only [hk, if_false]
        exact ih (fun kv' h' => hf kv' (List.mem_cons_of_mem _ h')) hrest x

theorem calcEvalRewards?_keys {st : ModelState} {er : AssocMap String ℚ}
    (hB : st.Built) (h : calcEvalRewards? st = some er) :
    ∀ x, (mfind? er x).isSome ↔ (mfind? st.action_rewards x).isSome := by
  apply mapOpt_pair_keys _ h
  intro kv hkv
  have hsome := mapOpt_all_isSome h kv hkv
  cases hp : mfind? st.transition_probs kv.1 with
  | none =>
    exfalso
    simp only [hp] at hsome
    simp at hsome
  | some probs =>
    simp only [hp]
    cases hi : mapOpt (fun dr => (mfind? probs dr.1).map (fun p => p * dr.2)) kv.2 with
    | none =>
      exfalso
      simp only [hp, hi] at hsome
      simp at hsome
    | some terms =>
      refine ⟨terms.sum, ?_⟩
      simp [hi]

theorem nodupKeys_transposeRow (a : String) :
    ∀ (probs : AssocMap Int ℚ) (acc : AssocMap Int (AssocMap String ℚ)),
      NodupKeys acc → NodupKeys (transposeRow a acc probs) := by
  intro probs
  induction probs with
  | nil => intro acc h; exact h
  | cons dp rest ih =>
    intro acc h
    exact ih _ (nodupKeys_mupdate _ _ _ _ h)

theorem nodupKeys_transposeAll :
    ∀ (tp : AssocMap String (AssocMap Int ℚ)) (acc : AssocMap Int (AssocMap String ℚ)),
      NodupKeys acc → NodupKeys (transposeAll acc tp) := by
  intro tp
  induction tp with
  | nil => intro acc h; exact h
  | cons ap rest ih =>
    intro acc h
    exact ih _ (nodupKeys_transposeRow _ _ _ h)

theorem nodupKeys_mapPair {α β γ : Type} [DecidableEq α] {m : AssocMap α β}
    (g : α → β → γ) (h : NodupKeys m) :
    NodupKeys (m.map (fun kv => (kv.1, g kv.1 kv.2))) := by
  unfold NodupKeys at *
  rw [List.map_map]
  have : (Prod.fst ∘ fun kv : α × β => (kv.1, g kv.1 kv.2)) = Prod.fst := by
    funext kv; rfl
  rw [this]
  exact h

theorem nodupKeys_calcEvalTransitionT (tp : AssocMap String (AssocMap Int ℚ)) :
    NodupKeys (calcEvalTransitionT tp) := by
  unfold calcEvalTransitionT
  exact nodupKeys_mapPair (fun d row => zeroFill row tp)
    (nodupKeys_transposeAll tp [] (by simp [NodupKeys]))

theorem cacheState_some_of_built {st : ModelState} (hB : st.Built) :
    ∃ st', cacheState st = some st' ∧
      st'.transition_probs = st.transition_probs ∧
      st'.action_rewards = st.action_rewards ∧
      st'.eval_transition_probs = calcEvalTransitionT st.transition_probs ∧
      (∀ x, (mfind? st'.eval_action_rewards x).isSome ↔
        (mfind? st.action_rewards x).isSome) := by
  obtain ⟨er, her⟩ := Option.isSome_iff_exists.1 (calcEvalRewards?_isSome_of_built hB)
  have hc : cacheState st = some
      { st with
        eval_action_rewards := er
        eval_transition_probs :=
          calcEvalTransition { st with eval_action_rewards := er } } := by
    rw [cacheState, her]
  refine ⟨_, hc, rfl, rfl, rfl, ?_⟩
  exact calcEvalRewards?_keys hB her

theorem cached_of_built {st st' : ModelState} (hB : st.Built)
    (h : cacheState st = some st') : st'.Cached := by
  obtain ⟨st'', h'', htp, har, hetp, hear⟩ := cacheState_some_of_built hB
  rw [h''] at h
  rw [Option.some_inj] at h
  subst h
  refine ⟨?_, ?_, ?_⟩
  · intro kv hkv
    rw [hear]
    exact hB.2.2.2.2.1.1 kv (htp ▸ hkv)
  · rw [hetp]
    exact nodupKeys_calcEvalTransitionT _
  · rw [htp]
    exact hB.1

theorem computeCaches_isSome {states : AssocMap Int ModelState}
    (h : ∀ kv ∈ states, ModelState.Built kv.2) : (computeCaches states).isSome := by
  apply mapOpt_isSome_of
  intro kv hkv
  obtain ⟨st', hst', _⟩ := cacheState_some_of_built (h kv hkv)
  simp [hst']

/-! ### The transpose cache -/

theorem mfind?_eq_none_of_not_isSome {α β : Type} [DecidableEq α] {m : AssocMap α β}
    {k : α} (h : ¬ (mfind? m k).isSome) : mfind? m k = none := by
  cases hm : mfind? m k with
  | none => rfl
  | some v => rw [hm] at h; simp at h

theorem transposeRow_lookup (action : String) :
    ∀ (probs : AssocMap Int ℚ), NodupKeys probs →
      ∀ (acc : AssocMap Int (AssocMap String ℚ)) (d : Int) (a : String),
        (mfind? (transposeRow action acc probs) d).bind (fun row => mfind? row a) =
          if a = action ∧ (mfind? probs d).isSome then mfind? probs d
          else (mfind? acc d).bind (fun row => mfind? row a) := by
  intro probs
  induction probs with
  | nil =>
    intro _ acc d a
    simp [transposeRow, mfind?]
  | cons dp rest ih =>
    intro hnd acc d a
    rw [NodupKeys, List.map_cons, List.nodup_cons] at hnd
    rw [transposeRow, ih hnd.2]
    by_cases hd : dp.1 = d
    · subst hd
      have hrest : mfind? rest dp.1 = none := by
        apply mfind?_eq_none_of_not_isSome
        intro hs
        exact hnd.1 ((mfind?_isSome_iff_mem_keys rest dp.1).1 hs)
      rw [hrest]
      simp only [Option.isSome_none, Bool.false_eq_true, and_false, if_false]
      rw [mfind?_mupdate_self]
      rw [Option.some_bind]
      have hcons : mfind? (dp :: rest) dp.1 = some dp.2 := by
        rw [mfind?_cons, if_pos rfl]
      rw [hcons]
      by_cases ha : a = action
      · subst ha
        rw [mfind?_minsert_self]
        simp
      · rw [mfind?_minsert_ne _ _ _ _ (fun he => ha he.symm)]
        rw [if_neg (fun hc => ha hc.1)]
        cases hacc : mfind? acc dp.1 with
        | none => simp [hacc, mfind?]
        | some r => simp [hacc]
    · rw [mfind?_mupdate_ne _ _ _ _ _ hd]
      have hcons : mfind? (dp :: rest) d = mfind? rest d := by
        rw [mfind?_cons, if_neg hd]
      rw [hcons]

theorem transposeAll_lookup :
    ∀ (tp : AssocMap String (AssocMap Int ℚ)), NodupKeys tp →
      (∀ kv ∈ tp, NodupKeys kv.2) →
      ∀ (acc : AssocMap Int (AssocMap String ℚ)) (d : Int) (a : String),
        (mfind? (transposeAll acc tp) d).bind (fun row => mfind? row a) =
          match (mfind? tp a).bind (fun probs => mfind? probs d) with
          | some p => some p
          | none => (mfind? acc d).bind (fun row => mfind? row a) := by
  intro tp
  induction tp with
  | nil =>
    intro _ _ acc d a
    simp [transposeAll, mfind?]
  | cons ap rest ih =>
    intro hnd hrows acc d a
    rw [NodupKeys, List.map_cons, List.nodup_cons] at hnd
    rw [transposeAll, ih hnd.2 (fun kv h => hrows kv (List.mem_cons_of_mem _ h))]
    by_cases ha : ap.1 = a
    · have hrest : mfind? rest a = none := by
        apply mfind?_eq_none_of_not_isSome
        intro hs
        exact hnd.1 (ha ▸ (mfind?_isSome_iff_mem_keys rest a).1 hs)
      rw [hrest]
      have hcons : mfind? (ap :: rest) a = some ap.2 := by
        rw [mfind?_cons, if_pos ha]
      rw [hcons, Option.none_bind, Option.some_bind]
      rw [transposeRow_lookup ap.1 ap.2 (hrows ap (List.mem_cons_self _ _))]
      by_cases hs : (mfind? ap.2 d).isSome
      · rw [if_pos ⟨ha.symm, hs⟩]
        obtain ⟨p, hp⟩ := Option.isSome_iff_exists.1 hs
        rw [hp]
      · rw [if_neg (fun hc => hs hc.2)]
        rw [mfind?_eq_none_of_not_isSome hs]
    · have hcons : mfind? (ap :: rest) a = mfind? rest a := by
        rw [mfind?_cons, if_neg ha]
      rw [hcons, transposeRow_lookup ap.1 ap.2 (hrows ap (List.mem_cons_self _ _))]
      rw [if_neg (fun hc => ha hc.1.symm)]

theorem zeroFill_lookup (a : String) :
    ∀ (tp : AssocMap String (AssocMap Int ℚ)) (row : AssocMap String ℚ),
      mfind? (zeroFill row tp) a =
        if (mfind? row a).isSome then mfind? row a
        else if (mfind? tp a).isSome then some 0 else none := by
  intro tp
  induction tp with
  | nil =>
    intro row
    cases h : mfind? row a with
    | none => simp [zeroFill, h, mfind?]
    | some p => simp [zeroFill, h]
  | cons ap rest ih =>
    intro row
    rw [zeroFill, ih]
    by_cases hk : ap.1 = a
    · have hself : mfind? (morInsert row ap.1 0) a = some ((mfind? row a).getD 0) := by
        rw [hk] at *
        exact mfind?_morInsert_self _ _ _
      rw [hself]
      simp only [Option.isSome_some, if_true]
      have hcons : (mfind? (ap :: rest) a).isSome := by
        rw [mfind?_cons, if_pos hk]
        simp
      rw [if_pos hcons]
      cases h : mfind? row a with
      | none => simp [h]
      | some p => simp [h]
    · rw [mfind?_morInsert_ne _ _ _ _ hk]
      have hcons : mfind? (ap :: rest) a = mfind? rest a := by
        rw [mfind?_cons, if_neg hk]
      rw [hcons]

/-- The zero-filled transpose: every action of the state appears in every
listed destination row, with the stored edge probability, or 0 when the action
has no edge to that destination. -/
theorem calcEvalTransitionT_lookup {tp : AssocMap String (AssocMap Int ℚ)}
    (hnd : NodupKeys tp) (hrows : ∀ kv ∈ tp, NodupKeys kv.2)
    {d : Int} {row : AssocMap String ℚ}
    (h : mfind? (calcEvalTransitionT tp) d = some row)
    {a : String} (ha : (mfind? tp a).isSome) :
    mfind? row a = some (((mfind? tp a).bind (fun pr => mfind? pr d)).getD 0) := by
  unfold calcEvalTransitionT at h
  rw [mfind?_mapPair (transposeAll [] tp) (fun _ r => zeroFill r tp) d] at h
  cases hb : mfind? (transposeAll [] tp) d with
  | none => rw [hb] at h; simp at h
  | some row₀ =>
    rw [hb] at h
    simp only [Option.map_some'] at h
    rw [Option.some_inj] at h
    subst h
    rw [zeroFill_lookup]
    have hrow₀ : mfind? row₀ a = (mfind? tp a).bind (fun pr => mfind? pr d) := by
      have := transposeAll_lookup tp hnd hrows [] d a
      rw [hb, Option.some_bind] at this
      rw [this]
      cases ht : (mfind? tp a).bind (fun pr => mfind? pr d) with
      | none => simp [mfind?]
      | some p => simp
    rw [hrow₀]
    cases ht : (mfind? tp a).bind (fun pr => mfind? pr d) with
    | none =>
      simp only [Option.isSome_none, Bool.false_eq_true, if_false]
      rw [if_pos ha]
      simp
    | some p => simp

end BuildLemmas

/-! ## Lemmas about policy evaluation -/

section EvalLemmas

theorem cover_of_map_fst_eq {α β γ : Type} (Q : α → Prop) {v : AssocMap α β}
    {v' : AssocMap α γ} (h : v'.map Prod.fst = v.map Prod.fst)
    (hv : ∀ kv ∈ v, Q kv.1) : ∀ kv ∈ v', Q kv.1 := by
  intro kv hkv
  have hmem : kv.1 ∈ v.map Prod.fst := h ▸ List.mem_map_of_mem Prod.fst hkv
  obtain ⟨kv₀, h₀, he⟩ := List.mem_map.1 hmem
  exact he ▸ hv kv₀ h₀

theorem mfind?_srOf (ag : Agent) (s : Int) :
    mfind? (srOf ag) s = (mfind? ag.policy s).map
      (fun row => match_mul_sum row (stateOfD ag s).eval_action_rewards) := by
  unfold srOf
  exact mfind?_mapPair ag.policy
    (fun s row => match_mul_sum row (stateOfD ag s).eval_action_rewards) s

theorem mfind?_spOf (ag : Agent) (s : Int) :
    mfind? (spOf ag) s = (mfind? ag.policy s).map
      (fun row => (stateOfD ag s).eval_transition_probs.map
        (fun kv₂ => (kv₂.1, match_mul_sum row kv₂.2))) := by
  unfold spOf
  exact mfind?_mapPair ag.policy
    (fun s row => (stateOfD ag s).eval_transition_probs.map
      (fun kv₂ => (kv₂.1, match_mul_sum row kv₂.2))) s

theorem precompute_sr {ag : Agent}
    (hpol : ∀ kv ∈ ag.policy, (mfind? ag.system_state.states kv.1).isSome) :
    mapOpt (fun kv => (mfind? ag.system_state.states kv.1).map
      (fun st => (kv.1, match_mul_sum kv.2 st.eval_action_rewards))) ag.policy =
      some (srOf ag) := by
  rw [srOf]
  apply mapOpt_eq_some_of
  intro kv hkv
  obtain ⟨st, hst⟩ := Option.isSome_iff_exists.1 (hpol kv hkv)
  simp [hst, stateOfD]

theorem precompute_sp {ag : Agent}
    (hpol : ∀ kv ∈ ag.policy, (mfind? ag.system_state.states kv.1).isSome) :
    mapOpt (fun kv => (mfind? ag.system_state.states kv.1).map
      (fun st => (kv.1, st.eval_transition_probs.map
        (fun kv₂ => (kv₂.1, match_mul_sum kv.2 kv₂.2))))) ag.policy =
      some (spOf ag) := by
  rw [spOf]
  apply mapOpt_eq_some_of
  intro kv hkv
  obtain ⟨st, hst⟩ := Option.isSome_iff_exists.1 (hpol kv hkv)
  simp [hst, stateOfD]

/-- One code sweep, under the coverage precondition, is exactly the Jacobi
sweep of the spec together with its maximum absolute change. -/
theorem sweep?_jacobi {ag : Agent} {gamma : ℚ}
    (hWF3 : ∀ kv ∈ ag.system_state.states, ModelState.Cached kv.2)
    (hpol : ∀ kv ∈ ag.policy, (mfind? ag.system_state.states kv.1).isSome)
    {v : AssocMap Int ℚ} (hv : ∀ kv ∈ v, (mfind? ag.policy kv.1).isSome) :
    sweep? (srOf ag) (spOf ag) gamma v =
      some (jacobiSweepSpec ag gamma v, jacobiDelta ag gamma v) := by
  have hpt : ∀ kv ∈ v,
      (fun kv : Int × ℚ =>
        match mfind? (spOf ag) kv.1, mfind? (srOf ag) kv.1 with
        | some probs, some r₀ =>
          let nr := r₀ + gamma * match_mul_sum probs v
          some ((kv.1, nr), |nr - kv.2|)
        | _, _ => none) kv =
      some ((kv.1, newValueSpec ag gamma v kv.1),
        |newValueSpec ag gamma v kv.1 - kv.2|) := by
    intro kv hkv
    obtain ⟨row, hrow⟩ := Option.isSome_iff_exists.1 (hv kv hkv)
    obtain ⟨st, hst⟩ :=
      Option.isSome_iff_exists.1 (hpol (kv.1, row) (mem_of_mfind?_eq_some hrow))
    have hcache : st.Cached := hWF3 (kv.1, st) (mem_of_mfind?_eq_some hst)
    have hstD : stateOfD ag kv.1 = st := by rw [stateOfD, hst]; rfl
    have hstatic : match_mul_sum row (stateOfD ag kv.1).eval_action_rewards =
        staticRewardSpec ag kv.1 := by
      rw [staticRewardSpec, hrow]
      simp only [Option.getD_some]
      unfold match_mul_sum
      apply congrArg List.sum
      apply List.map_congr_left
      intro ap _
      ring
    have hfuture : match_mul_sum ((stateOfD ag kv.1).eval_transition_probs.map
        (fun kv₂ => (kv₂.1, match_mul_sum row kv₂.2))) v =
        ((stateOfD ag kv.1).eval_transition_probs.map
          (fun kv₂ => ((mfind? v kv₂.1).getD 0) *
            transUnderPolicySpec ag kv.1 kv₂.1)).sum := by
      unfold match_mul_sum
      rw [List.map_map]
      apply congrArg List.sum
      apply List.map_congr_left
      intro kv₂ hkv₂
      have hetp : mfind? (stateOfD ag kv.1).eval_transition_probs kv₂.1 = some kv₂.2 := by
        rw [hstD]
        exact mfind?_eq_some_of_mem_nodup hcache.2.1 (hstD ▸ hkv₂)
      have htu : transUnderPolicySpec ag kv.1 kv₂.1 =
          (row.map (fun ap => ((mfind? kv₂.2 ap.1).getD 0) * ap.2)).sum := by
        rw [transUnderPolicySpec, hrow]
        simp only [Option.getD_some]
        rw [hetp]
        simp only [Option.getD_some]
        apply congrArg List.sum
        apply List.map_congr_left
        intro ap _
        ring
      show ((mfind? v kv₂.1).getD 0) * match_mul_sum row kv₂.2 =
        ((mfind? v kv₂.1).getD 0) * transUnderPolicySpec ag kv.1 kv₂.1
      rw [htu]
      rfl
    have hsr' : mfind? (srOf ag) kv.1 =
        some (match_mul_sum row (stateOfD ag kv.1).eval_action_rewards) := by
      rw [mfind?_srOf, hrow]; rfl
    have hsp' : mfind? (spOf ag) kv.1 =
        some ((stateOfD ag kv.1).eval_transition_probs.map
          (fun kv₂ => (kv₂.1, match_mul_sum row kv₂.2))) := by
      rw [mfind?_spOf, hrow]; rfl
    simp only [hsp', hsr']
    rw [hstatic, hfuture]
    rfl
  have hmap := mapOpt_eq_some_of hpt
  unfold sweep?
  rw [hmap]
  simp only [List.map_map]
  rfl

theorem jacobiSweepSpec_map_fst (ag : Agent) (gamma : ℚ) (v : AssocMap Int ℚ) :
    (jacobiSweepSpec ag gamma v).map Prod.fst = v.map Prod.fst := by
  unfold jacobiSweepSpec
  rw [List.map_map]
  rfl

/-- Under the coverage precondition the two precomputations succeed, and the
whole of `evaluate_policy` reduces to its fixed-point loop. -/
theorem evaluate_policy_aux?_eq {ag : Agent} (gamma eps : ℚ) (n : Nat)
    (hpol : ∀ kv ∈ ag.policy, (mfind? ag.system_state.states kv.1).isSome) :
    ag.evaluate_policy_aux? gamma eps n =
      match loopW (sweep? (srOf ag) (spOf ag) gamma) eps n (2 ^ 32) 0
          ag.policy_evaluation with
      | none => none
      | some r => some ({ ag with policy_evaluation := r.1 }, r.2) := by
  unfold Agent.evaluate_policy_aux?
  rw [precompute_sr hpol, precompute_sp hpol]

theorem evaluate_policy_aux?_iter {ag : Agent} (gamma eps : ℚ) (n : Nat)
    (hWF : ag.WF) :
    ∃ k, 1 ≤ k ∧ ag.evaluate_policy_aux? gamma eps n =
      some ({ ag with policy_evaluation :=
        (jacobiSweepSpec ag gamma)^[k] ag.policy_evaluation }, k) := by
  obtain ⟨hWF1, hWF2, hWF3⟩ := hWF
  obtain ⟨k, hk, hfuel⟩ := loopW_iter eps n
    (fun v (hv : ∀ kv ∈ v, (mfind? ag.policy kv.1).isSome) => sweep?_jacobi hWF3 hWF2 hv)
    (fun v hv kv hkv =>
      cover_of_map_fst_eq (fun x => (mfind? ag.policy x).isSome = true)
        (jacobiSweepSpec_map_fst ag gamma v) hv kv hkv)
    (2 ^ 32) 0 ag.policy_evaluation hWF1
  refine ⟨k, hfuel (by norm_num), ?_⟩
  rw [evaluate_policy_aux?_eq gamma eps n hWF2, hk]

theorem evaluate_policy_aux?_pure {ag : Agent} (gamma eps : ℚ) {n : Nat}
    (hWF : ag.WF) (hn1 : 1 ≤ n) (hn2 : n < 2 ^ 32) :
    ag.evaluate_policy_aux? gamma eps n =
      some (evalPure ag gamma eps n,
        loopPCount (jacobiSweepSpec ag gamma) (jacobiDelta ag gamma) eps n
          ag.policy_evaluation) := by
  obtain ⟨hWF1, hWF2, hWF3⟩ := hWF
  have hloop := loopW_pure eps n
    (fun v (hv : ∀ kv ∈ v, (mfind? ag.policy kv.1).isSome) => sweep?_jacobi hWF3 hWF2 hv)
    (fun v hv kv hkv =>
      cover_of_map_fst_eq (fun x => (mfind? ag.policy x).isSome = true)
        (jacobiSweepSpec_map_fst ag gamma v) hv kv hkv)
    (2 ^ 32) 0 ag.policy_evaluation hWF1 (by omega) (by omega) hn2
  rw [evaluate_policy_aux?_eq gamma eps n hWF2, hloop]
  rfl

theorem evaluate_policy?_evalPure {ag : Agent} (gamma eps : ℚ) (n : Nat)
    (hWF : ag.WF) (hn1 : 1 ≤ n) (hn2 : n < 2 ^ 32) :
    ag.evaluate_policy? gamma eps n = some (evalPure ag gamma eps n) := by
  unfold Agent.evaluate_policy?
  rw [evaluate_policy_aux?_pure gamma eps hWF hn1 hn2]
  rfl

theorem loopP_map_fst {α β : Type} {step : AssocMap α β → AssocMap α β}
    {dlt : AssocMap α β → ℚ} {eps : ℚ}
    (hstep : ∀ t, (step t).map Prod.fst = t.map Prod.fst) :
    ∀ (n : Nat) (v : AssocMap α β),
      (loopP step dlt eps n v).map Prod.fst = v.map Prod.fst := by
  intro n
  induction n with
  | zero => intro v; rfl
  | succ m ih =>
    intro v
    rw [loopP]
    by_cases hd : dlt v < eps
    · simp only [hd, if_true]
      exact hstep v
    · simp only [hd, if_false]
      rw [ih (step v), hstep v]

theorem evalPure_map_fst (ag : Agent) (gamma eps : ℚ) (n : Nat) :
    (evalPure ag gamma eps n).policy_evaluation.map Prod.fst =
      ag.policy_evaluation.map Prod.fst := by
  unfold evalPure
  exact loopP_map_fst (jacobiSweepSpec_map_fst ag gamma) n ag.policy_evaluation

theorem evalPure_policy (ag : Agent) (gamma eps : ℚ) (n : Nat) :
    (evalPure ag gamma eps n).policy = ag.policy := rfl

theorem evalPure_system (ag : Agent) (gamma eps : ℚ) (n : Nat) :
    (evalPure ag gamma eps n).system_state = ag.system_state := rfl

theorem evalPure_WF {ag : Agent} (gamma eps : ℚ) (n : Nat) (hWF : ag.WF) :
    (evalPure ag gamma eps n).WF := by
  obtain ⟨hWF1, hWF2, hWF3⟩ := hWF
  refine ⟨?_, hWF2, hWF3⟩
  exact cover_of_map_fst_eq (fun x => (mfind? ag.policy x).isSome = true)
    (evalPure_map_fst ag gamma eps n) hWF1

theorem evalPure_nonempty {ag : Agent} (gamma eps : ℚ) (n : Nat)
    (h : ag.policy_evaluation ≠ []) :
    (evalPure ag gamma eps n).policy_evaluation ≠ [] := by
  intro hc
  apply h
  have := evalPure_map_fst ag gamma eps n
  rw [hc] at this
  simpa using (List.map_eq_nil.1 this.symm)

/-! ### Success and panic of `evaluate_policy` without the cache hypotheses -/

theorem loopW_isSome {σ : Type} {body : σ → Option (σ × ℚ)} {P : σ → Prop}
    (hBody : ∀ s, P s → ∃ s' d, body s = some (s', d) ∧ P s') (eps : ℚ) (cap : Nat) :
    ∀ (fuel counter : Nat) (s : σ), P s →
      (loopW body eps cap fuel counter s).isSome := by
  intro fuel
  induction fuel with
  | zero => intro c s _; simp [loopW]
  | succ f ih =>
    intro c s hs
    obtain ⟨s', d, hb, hP⟩ := hBody s hs
    rw [loopW, hb]
    by_cases hbr : d < eps ∨ (c + 1) % 2 ^ 32 = cap
    · simp only [hbr, if_true]
      rfl
    · simp only [hbr, if_false]
      have hrec := ih ((c + 1) % 2 ^ 32) s' hP
      cases hr : loopW body eps cap f ((c + 1) % 2 ^ 32) s' with
      | none => rw [hr] at hrec; simp at hrec
      | some r => rfl

theorem sweep?_isSome {sr : AssocMap Int ℚ} {sp : AssocMap Int (AssocMap Int ℚ)}
    {gamma : ℚ} {v : AssocMap Int ℚ}
    (h : ∀ kv ∈ v, (mfind? sp kv.1).isSome ∧ (mfind? sr kv.1).isSome) :
    ∃ v' d, sweep? sr sp gamma v = some (v', d) ∧
      v'.map Prod.fst = v.map Prod.fst := by
  have hpt : ∀ kv ∈ v, (fun kv : Int × ℚ =>
      match mfind? sp kv.1, mfind? sr kv.1 with
      | some probs, some r₀ =>
        let nr := r₀ + gamma * match_mul_sum probs v
        some ((kv.1, nr), |nr - kv.2|)
      | _, _ => none) kv =
      some ((kv.1, ((mfind? sr kv.1).getD 0) +
          gamma * match_mul_sum ((mfind? sp kv.1).getD []) v),
        |((mfind? sr kv.1).getD 0) +
          gamma * match_mul_sum ((mfind? sp kv.1).getD []) v - kv.2|) := by
    intro kv hkv
    obtain ⟨probs, hp⟩ := Option.isSome_iff_exists.1 (h kv hkv).1
    obtain ⟨r₀, hr⟩ := Option.isSome_iff_exists.1 (h kv hkv).2
    simp only [hp, hr, Option.getD_some]
  have hm := mapOpt_eq_some_of hpt
  unfold sweep?
  rw [hm]
  refine ⟨_, _, rfl, ?_⟩
  rw [List.map_map, List.map_map]
  rfl

theorem evaluate_policy?_isSome {ag : Agent} (gamma eps : ℚ) (n : Nat)
    (h1 : ∀ kv ∈ ag.policy_evaluation, (mfind? ag.policy kv.1).isSome)
    (h2 : ∀ kv ∈ ag.policy, (mfind? ag.system_state.states kv.1).isSome) :
    (ag.evaluate_policy? gamma eps n).isSome := by
  unfold Agent.evaluate_policy?
  rw [evaluate_policy_aux?_eq gamma eps n h2]
  have hBody : ∀ v, (∀ kv ∈ v, (mfind? ag.policy kv.1).isSome) →
      ∃ v' d, sweep? (srOf ag) (spOf ag) gamma v = some (v', d) ∧
        (∀ kv ∈ v', (mfind? ag.policy kv.1).isSome) := by
    intro v hv
    have hsome : ∀ kv ∈ v, (mfind? (spOf ag) kv.1).isSome ∧
        (mfind? (srOf ag) kv.1).isSome := by
      intro kv hkv
      constructor
      · rw [mfind?_spOf]
        simp [hv kv hkv]
      · rw [mfind?_srOf]
        simp [hv kv hkv]
    obtain ⟨v', d, hb, hfst⟩ := sweep?_isSome hsome
    exact ⟨v', d, hb,
      cover_of_map_fst_eq (fun x => (mfind? ag.policy x).isSome = true) hfst hv⟩
  have hS := loopW_isSome hBody eps n (2 ^ 32) 0 ag.policy_evaluation h1
  cases hr : loopW (sweep? (srOf ag) (spOf ag) gamma) eps n (2 ^ 32) 0
      ag.policy_evaluation with
  | none => rw [hr] at hS; simp at hS
  | some r => simp

theorem evaluate_policy?_none_of_badPolicy {ag : Agent} (gamma eps : ℚ) (n : Nat)
    {kv : Int × AssocMap String ℚ} (hkv : kv ∈ ag.policy)
    (h : mfind? ag.system_state.states kv.1 = none) :
    ag.evaluate_policy? gamma eps n = none := by
  unfold Agent.evaluate_policy? Agent.evaluate_policy_aux?
  have hnone : mapOpt (fun kv => (mfind? ag.system_state.states kv.1).map
      (fun st => (kv.1, match_mul_sum kv.2 st.eval_action_rewards))) ag.policy = none :=
    mapOpt_eq_none_of hkv (by rw [h]; rfl)
  rw [hnone]
  rfl

theorem evaluate_policy?_none_of_badValue {ag : Agent} (gamma eps : ℚ) (n : Nat)
    (h2 : ∀ kv ∈ ag.policy, (mfind? ag.system_state.states kv.1).isSome)
    {kv : Int × ℚ} (hkv : kv ∈ ag.policy_evaluation)
    (h : mfind? ag.policy kv.1 = none) :
    ag.evaluate_policy? gamma eps n = none := by
  unfold Agent.evaluate_policy?
  rw [evaluate_policy_aux?_eq gamma eps n h2]
  have hsweep : sweep? (srOf ag) (spOf ag) gamma ag.policy_evaluation = none := by
    unfold sweep?
    have hnone : mapOpt (fun kv : Int × ℚ =>
        match mfind? (spOf ag) kv.1, mfind? (srOf ag) kv.1 with
        | some probs, some r₀ =>
          let nr := r₀ + gamma * match_mul_sum probs ag.policy_evaluation
          some ((kv.1, nr), |nr - kv.2|)
        | _, _ => none) ag.policy_evaluation = none := by
      apply mapOpt_eq_none_of hkv
      rw [mfind?_spOf, h]
      rfl
    rw [hnone]
  rw [loopW_none (by norm_num) hsweep]
  rfl

end EvalLemmas

/-! ## Lemmas about the improvement loop -/

section ImprovLemmas

theorem calc_best_action?_isSome {st : ModelState}
    (h : ∀ kv ∈ st.transition_probs, (mfind? st.eval_action_rewards kv.1).isSome)
    (d : String) (v : AssocMap Int ℚ) : (calc_best_action? st d v).isSome := by
  unfold calc_best_action?
  have hm : (mapOpt (fun kv => (mfind? st.eval_action_rewards kv.1).map
      (fun ar => (kv.1, ar + match_mul_sum kv.2 v))) st.transition_probs).isSome := by
    apply mapOpt_isSome_of
    intro kv hkv
    obtain ⟨ar, har⟩ := Option.isSome_iff_exists.1 (h kv hkv)
    simp [har]
  obtain ⟨scored, hscored⟩ := Option.isSome_iff_exists.1 hm
  rw [hscored]
  rfl

theorem mfind?_greedyPolicySpec (ag : Agent) (s : Int) :
    mfind? (greedyPolicySpec ag) s = (mfind? ag.system_state.states s).map
      (fun st => calc_best_policy st
        ((calc_best_action? st noActionsStr ag.policy_evaluation).getD noActionsStr)) := by
  unfold greedyPolicySpec
  exact mfind?_mapPair ag.system_state.states
    (fun _ st => calc_best_policy st
      ((calc_best_action? st noActionsStr ag.policy_evaluation).getD noActionsStr)) s

theorem greedy_mapOpt_eq {ag : Agent}
    (hWF3 : ∀ kv ∈ ag.system_state.states, ModelState.Cached kv.2) :
    mapOpt (fun kv => (calc_best_action? kv.2 noActionsStr ag.policy_evaluation).map
      (fun ba => (kv.1, calc_best_policy kv.2 ba))) ag.system_state.states =
      some (greedyPolicySpec ag) := by
  rw [greedyPolicySpec]
  apply mapOpt_eq_some_of
  intro kv hkv
  obtain ⟨ba, hba⟩ := Option.isSome_iff_exists.1
    (calc_best_action?_isSome (hWF3 kv hkv).1 noActionsStr ag.policy_evaluation)
  simp [hba]

theorem greedy_WF {ag : Agent} (hWF : ag.WF) :
    ({ ag with policy := greedyPolicySpec ag } : Agent).WF := by
  obtain ⟨hWF1, hWF2, hWF3⟩ := hWF
  refine ⟨?_, ?_, hWF3⟩
  · intro kv hkv
    obtain ⟨row, hrow⟩ := Option.isSome_iff_exists.1 (hWF1 kv hkv)
    have hst := hWF2 (kv.1, row) (mem_of_mfind?_eq_some hrow)
    show (mfind? (greedyPolicySpec ag) kv.1).isSome
    rw [mfind?_greedyPolicySpec]
    simp only at hst
    simp [hst]
  · intro kv hkv
    obtain ⟨kv₀, h₀, he⟩ := List.mem_map.1 hkv
    show (mfind? ag.system_state.states kv.1).isSome
    rw [← he]
    exact mfind?_isSome_of_mem h₀

theorem improveStepSpec_WF {ag : Agent} (gamma eps : ℚ) (hWF : ag.WF) :
    (improveStepSpec gamma eps ag).WF :=
  evalPure_WF gamma eps 100 (greedy_WF hWF)

theorem improveStepSpec_nonempty {ag : Agent} (gamma eps : ℚ)
    (hne : ag.policy_evaluation ≠ []) :
    (improveStepSpec gamma eps ag).policy_evaluation ≠ [] :=
  evalPure_nonempty gamma eps 100 hne

theorem improvBody_eq {ag : Agent} (gamma eps : ℚ) (hWF : ag.WF)
    (hne : ag.policy_evaluation ≠ []) :
    improvBody gamma eps ag =
      some (improveStepSpec gamma eps ag, improveDiffSpec gamma eps ag) := by
  have hWF₂ := greedy_WF hWF
  unfold improvBody
  simp only [greedy_mapOpt_eq hWF.2.2]
  simp only [evaluate_policy?_evalPure gamma eps 100 hWF₂ (by norm_num) (by norm_num)]
  have hkeys : ∀ kv ∈ ag.policy_evaluation,
      (mfind? (improveStepSpec gamma eps ag).policy_evaluation kv.1).isSome := by
    intro kv hkv
    rw [mfind?_isSome_iff_mem_keys]
    have hfst : (improveStepSpec gamma eps ag).policy_evaluation.map Prod.fst =
        ag.policy_evaluation.map Prod.fst :=
      evalPure_map_fst { ag with policy := greedyPolicySpec ag } gamma eps 100
    rw [hfst]
    exact List.mem_map_of_mem Prod.fst hkv
  have hdiffs : mapOpt (fun kv =>
      (mfind? (evalPure { ag with policy := greedyPolicySpec ag } gamma eps
          100).policy_evaluation kv.1).map (fun nv => |kv.2 - nv|))
      ag.policy_evaluation =
      some (ag.policy_evaluation.map (fun kv =>
        |kv.2 - (mfind? (improveStepSpec gamma eps ag).policy_evaluation kv.1).getD 0|)) := by
    apply mapOpt_eq_some_of
    intro kv hkv
    obtain ⟨nv, hnv⟩ := Option.isSome_iff_exists.1 (hkeys kv hkv)
    have hnv' : mfind? (evalPure { ag with policy := greedyPolicySpec ag } gamma eps
        100).policy_evaluation kv.1 = some nv := hnv
    simp [hnv', hnv]
  simp only [hdiffs]
  have hmapne : ag.policy_evaluation.map (fun kv =>
      |kv.2 - (mfind? (improveStepSpec gamma eps ag).policy_evaluation kv.1).getD 0|) ≠ [] :=
    fun hc => hne (List.map_eq_nil.1 hc)
  simp only [maxQList_eq_some_of_ne hmapne]
  rfl

theorem improvement_aux?_pure {ag : Agent} (gamma eps : ℚ) {piters eiters : Nat}
    (hWF : ag.WF) (hne : ag.policy_evaluation ≠ [])
    (hp1 : 1 ≤ piters) (hp2 : piters < 2 ^ 32)
    (he1 : 1 ≤ eiters) (he2 : eiters < 2 ^ 32) :
    ag.deterministic_policy_improvement_aux? gamma eps piters eiters =
      some (loopP (improveStepSpec gamma eps) (improveDiffSpec gamma eps) eps piters
          (evalPure ag gamma eps eiters),
        loopPCount (improveStepSpec gamma eps) (improveDiffSpec gamma eps) eps piters
          (evalPure ag gamma eps eiters)) := by
  unfold Agent.deterministic_policy_improvement_aux?
  simp only [evaluate_policy?_evalPure gamma eps eiters hWF he1 he2]
  have hInv : (evalPure ag gamma eps eiters).WF ∧
      (evalPure ag gamma eps eiters).policy_evaluation ≠ [] :=
    ⟨evalPure_WF gamma eps eiters hWF, evalPure_nonempty gamma eps eiters hne⟩
  exact loopW_pure eps piters
    (fun a (ha : a.WF ∧ a.policy_evaluation ≠ []) => improvBody_eq gamma eps ha.1 ha.2)
    (fun a ha => ⟨improveStepSpec_WF gamma eps ha.1, improveStepSpec_nonempty gamma eps ha.2⟩)
    (2 ^ 32) 0 _ hInv (by omega) (by omega) hp2

end ImprovLemmas

/-! ## Assembling the builder facts -/

section BuildAssembly

theorem mapOpt_mem_source {α β : Type} {f : α → Option β} :
    ∀ {l : List α} {l' : List β}, mapOpt f l = some l' →
      ∀ y ∈ l', ∃ x ∈ l, f x = some y := by
  intro l
  induction l with
  | nil =>
    intro l' h y hy
    simp only [mapOpt] at h
    rw [Option.some_inj] at h
    subst h
    simp at hy
  | cons x xs ih =>
    intro l' h y hy
    cases hfx : f x with
    | none => simp [mapOpt, hfx] at h
    | some z =>
      cases hxs : mapOpt f xs with
      | none => simp [mapOpt, hfx, hxs] at h
      | some zs =>
        rw [mapOpt, hfx, hxs] at h
        simp only at h
        rw [Option.some_inj] at h
        subst h
        rcases List.mem_cons.1 hy with h' | h'
        · exact ⟨x, List.mem_cons_self _ _, h' ▸ hfx⟩
        · obtain ⟨x', hx', hfx'⟩ := ih hxs y h'
          exact ⟨x', List.mem_cons_of_mem _ hx', hfx'⟩

theorem create_and_build_parts {links : List StateLink} {sys : SystemState}
    (h : SystemState.create_and_build links = some sys) :
    computeCaches (ingest [] links) = some sys.states ∧ sys.speficication = links := by
  have hform : SystemState.create_and_build links =
      (match computeCaches (ingest [] links) with
      | none => none
      | some sts =>
        some { states := sts, speficication := links, is_built := true }) := rfl
  rw [hform] at h
  cases hc : computeCaches (ingest [] links) with
  | none => rw [hc] at h; simp at h
  | some sts =>
    rw [hc] at h
    simp only at h
    rw [Option.some_inj] at h
    subst h
    exact ⟨rfl, rfl⟩

/-- Every state of a built system is the cached version of a `Built` state of
the ingestion stage. -/
theorem build_state_origin {links : List StateLink} {sys : SystemState}
    (h : SystemState.create_and_build links = some sys) :
    ∀ kv ∈ sys.states, ∃ st₀,
      (kv.1, st₀) ∈ ingest ([] : AssocMap Int ModelState) links ∧
      ModelState.Built st₀ ∧ cacheState st₀ = some kv.2 := by
  intro kv hkv
  obtain ⟨hc, _⟩ := create_and_build_parts h
  obtain ⟨x, hx, hfx⟩ := mapOpt_mem_source hc kv hkv
  have hbuilt : ModelState.Built x.2 :=
    built_ingest links [] (by intro kv h'; simp at h') x hx
  cases hcs : cacheState x.2 with
  | none => rw [hcs] at hfx; simp at hfx
  | some st' =>
    rw [hcs] at hfx
    simp only [Option.map_some'] at hfx
    rw [Option.some_inj] at hfx
    refine ⟨x.2, ?_, hbuilt, ?_⟩
    · have : (kv.1, x.2) = x := by
        rw [← hfx]
      rw [this]
      exact hx
    · rw [hcs, ← hfx]

/-- Value-level description of a built system's lookups. -/
theorem build_lookup {links : List StateLink} {sys : SystemState}
    (h : SystemState.create_and_build links = some sys) (id : Int) :
    mfind? sys.states id = (mfind? (ingest [] links) id).bind cacheState := by
  obtain ⟨hc, _⟩ := create_and_build_parts h
  exact mapOpt_pair_lookup hc id

/-- Every state of a built system satisfies the cache well-formedness the
agent-level proofs rely on. -/
theorem build_cached {links : List StateLink} {sys : SystemState}
    (h : SystemState.create_and_build links = some sys) :
    ∀ kv ∈ sys.states, ModelState.Cached kv.2 := by
  intro kv hkv
  obtain ⟨st₀, _, hbuilt, hcs⟩ := build_state_origin h kv hkv
  exact cached_of_built hbuilt hcs

/-- `init_random` of a built system satisfies the coverage precondition. -/
theorem init_random_WF {links : List StateLink} {sys : SystemState}
    (h : SystemState.create_and_build links = some sys) :
    (Agent.init_random sys).WF := by
  refine ⟨?_, ?_, ?_⟩
  · intro kv hkv
    obtain ⟨kv₀, h₀, he⟩ := List.mem_map.1 hkv
    show (mfind? (sys.states.map (fun kv => (kv.1, kv.2.get_random_policy))) kv.1).isSome
    rw [mfind?_mapPair sys.states (fun _ st => st.get_random_policy) kv.1]
    rw [← he]
    simp [mfind?_isSome_of_mem h₀]
  · intro kv hkv
    obtain ⟨kv₀, h₀, he⟩ := List.mem_map.1 hkv
    show (mfind? sys.states kv.1).isSome
    rw [← he]
    exact mfind?_isSome_of_mem h₀
  · exact build_cached h

end BuildAssembly

/-! ## Greedy action selection -/

section GreedyLemmas

/-- What `calc_best_action` computes: the sentinel on an actionless state, and
otherwise an action of the state whose score
`expectedActionReward[a] + Σ_{s'} outcomes[a][s'] · value[s']` is maximal. -/
theorem calc_best_action?_spec {st : ModelState}
    (hnd : NodupKeys st.transition_probs)
    (hear : ∀ kv ∈ st.transition_probs, (mfind? st.eval_action_rewards kv.1).isSome)
    (d : String) (v : AssocMap Int ℚ) :
    ∃ r, calc_best_action? st d v = some r ∧
      (st.transition_probs = [] → r = d) ∧
      (st.transition_probs ≠ [] →
        (mfind? st.transition_probs r).isSome ∧
        ∀ kv ∈ st.transition_probs, greedyScore st v kv.1 ≤ greedyScore st v r) := by
  have hpt : ∀ kv ∈ st.transition_probs,
      (fun kv : String × AssocMap Int ℚ =>
        (mfind? st.eval_action_rewards kv.1).map
          (fun ar => (kv.1, ar + match_mul_sum kv.2 v))) kv =
      some (kv.1, ((mfind? st.eval_action_rewards kv.1).getD 0) + match_mul_sum kv.2 v) := by
    intro kv hkv
    obtain ⟨ar, har⟩ := Option.isSome_iff_exists.1 (hear kv hkv)
    simp [har]
  have hscored := mapOpt_eq_some_of hpt
  have hscore_eq : ∀ kv ∈ st.transition_probs,
      ((mfind? st.eval_action_rewards kv.1).getD 0) + match_mul_sum kv.2 v =
        greedyScore st v kv.1 := by
    intro kv hkv
    rw [greedyScore, mfind?_eq_some_of_mem_nodup hnd hkv]
    simp
  by_cases hempty : st.transition_probs = []
  · refine ⟨d, ?_, fun _ => rfl, fun hne => absurd hempty hne⟩
    unfold calc_best_action?
    simp only [hscored, hempty, List.map_nil]
    rfl
  · have hscne : st.transition_probs.map (fun x : String × AssocMap Int ℚ =>
        (x.1, ((mfind? st.eval_action_rewards x.1).getD 0) + match_mul_sum x.2 v)) ≠ [] :=
      fun hc => hempty (List.map_eq_nil.1 hc)
    cases hmax : maxByVal (st.transition_probs.map
        (fun x : String × AssocMap Int ℚ =>
          (x.1, ((mfind? st.eval_action_rewards x.1).getD 0) + match_mul_sum x.2 v))) with
    | none => exact absurd ((maxByVal_eq_none_iff _).1 hmax) hscne
    | some p =>
      obtain ⟨hmem, hmaxall⟩ := maxByVal_spec hmax
      obtain ⟨kvr, hkvr, hkvre⟩ := List.mem_map.1 hmem
      refine ⟨p.1, ?_, fun he => absurd he hempty, fun _ => ⟨?_, ?_⟩⟩
      · unfold calc_best_action?
        simp only [hscored]
        rw [hmax]
        rfl
      · have hpk : p.1 = kvr.1 := by rw [← hkvre]
        rw [hpk]
        exact mfind?_isSome_of_mem hkvr
      · intro kv hkv
        have hin : (kv.1, ((mfind? st.eval_action_rewards kv.1).getD 0) +
            match_mul_sum kv.2 v) ∈ st.transition_probs.map
            (fun x : String × AssocMap Int ℚ =>
              (x.1, ((mfind? st.eval_action_rewards x.1).getD 0) + match_mul_sum x.2 v)) :=
          List.mem_map_of_mem _ hkv
        have hle := hmaxall _ hin
        have hl : greedyScore st v kv.1 ≤ p.2 := by
          rw [← hscore_eq kv hkv]
          exact hle
        have hr : p.2 = greedyScore st v p.1 := by
          have hs := hscore_eq kvr hkvr
          rw [← hkvre]
          simpa using hs
        rw [← hr]
        exact hl

end GreedyLemmas

/-! ## The claims -/

section Claims

/-- C1, counterexample: `calc_best_action` ignores the discount factor.  On
the model where action `A` earns 10 immediately and action `B` earns 0 but
reaches a state valued 100, the code returns `B`, yet at γ = 0 the claimed
score `expectedActionReward + γ·Σ inbound·value` of `B` is strictly below that
of `A`, so the returned action does not maximize the claimed quantity. -/
theorem c1_greedy_counterexample :
    calc_best_action? cexState noActionsStr cexValue = some "B" ∧
    claimActionScore cexState 0 cexValue "B" < claimActionScore cexState 0 cexValue "A" := by
  with_unfolding_all decide

/-- C1 (amended): for every state of a built system, `calc_best_action`
returns the sentinel when the state has no action, and otherwise an action of
the state maximizing `expectedActionReward[a] + Σ_s' actionOutcomes[a][s'] ·
value[s']` — the undiscounted score; the discount factor is not applied. -/
theorem c1_best_action_greedy {links : List StateLink} {sys : SystemState}
    (h : SystemState.create_and_build links = some sys) (d : String)
    (v : AssocMap Int ℚ) :
    ∀ id st, mfind? sys.states id = some st →
      ∃ r, calc_best_action? st d v = some r ∧
        (st.transition_probs = [] → r = d) ∧
        (st.transition_probs ≠ [] →
          (mfind? st.transition_probs r).isSome ∧
          ∀ kv ∈ st.transition_probs, greedyScore st v kv.1 ≤ greedyScore st v r) := by
  intro id st hst
  have hc := build_cached h (id, st) (mem_of_mfind?_eq_some hst)
  exact calc_best_action?_spec hc.2.2 hc.1 d v

/-- C1, witness: the amended theorem applied to the bandit's state 0. -/
theorem c1_best_action_greedy_witness :
    (calc_best_action? wSt0 noActionsStr cexValue).isSome := by
  obtain ⟨r, hr, -, -⟩ := c1_best_action_greedy
    (show SystemState.create_and_build wLinks = some wSys from rfl) noActionsStr cexValue
    0 wSt0 rfl
  rw [hr]
  rfl

/-- C2: under the coverage precondition, `evaluate_policy` performs some
positive number `k` of synchronous sweeps: the final value table is the
`k`-th iterate of the spec's Jacobi sweep — each state's new value computed
from the previous sweep's full table as
`staticReward[s] + γ · Σ_s' transitionUnderPolicy[s][s'] · oldValue[s']`,
with `staticReward` and `transitionUnderPolicy` the once-per-call
precomputations — and the policy and model are untouched. -/
theorem c2_evaluation_jacobi (ag : Agent) (gamma eps : ℚ) (n : Nat) (hWF : ag.WF) :
    ∃ k, 1 ≤ k ∧ ag.evaluate_policy? gamma eps n =
      some { ag with policy_evaluation :=
        (jacobiSweepSpec ag gamma)^[k] ag.policy_evaluation } := by
  obtain ⟨k, hk1, hk⟩ := evaluate_policy_aux?_iter gamma eps n hWF
  refine ⟨k, hk1, ?_⟩
  unfold Agent.evaluate_policy?
  rw [hk]
  rfl

/-- C2, witness: the Jacobi characterization applied to the bandit agent. -/
theorem c2_evaluation_jacobi_witness :
    (wAgent.evaluate_policy? 1 (1/100) 10).isSome := by
  obtain ⟨k, -, hk⟩ := c2_evaluation_jacobi wAgent 1 (1/100) 10 (of_decide_eq_true rfl)
  rw [hk]
  rfl

/-- C3, counterexample: with a sweep cap of `n = 0` the loop still sweeps —
the value table changes — so "performs at most n sweeps" fails at `n = 0`
(the do-while loop always runs at least one sweep, and its `u32` counter can
only equal 0 again after wrapping). -/
theorem c3_cap_counterexample :
    ¬ ((wAgent.evaluate_policy? 1 (1/1000) 0).map Agent.policy_evaluation =
      some wAgent.policy_evaluation) := by
  with_unfolding_all decide

/-- C3 (amended): for a covered agent and a cap `1 ≤ n < 2^32`, evaluation
returns (never hangs or panics), performs `k` sweeps with `1 ≤ k ≤ n`,
stops exactly when the maximum absolute change drops below `ε` or the cap is
reached — no earlier sweep's change was below `ε` — and the `k`-th Jacobi
iterate replaces the agent's value table. -/
theorem c3_evaluation_terminates (ag : Agent) (gamma eps : ℚ) (n : Nat)
    (hWF : ag.WF) (hn1 : 1 ≤ n) (hn2 : n < 2 ^ 32) :
    ∃ k, ag.evaluate_policy_aux? gamma eps n =
        some ({ ag with policy_evaluation :=
          (jacobiSweepSpec ag gamma)^[k] ag.policy_evaluation }, k) ∧
      1 ≤ k ∧ k ≤ n ∧
      (jacobiDelta ag gamma
          ((jacobiSweepSpec ag gamma)^[k - 1] ag.policy_evaluation) < eps ∨ k = n) ∧
      (∀ j, j + 1 < k →
        ¬ jacobiDelta ag gamma
            ((jacobiSweepSpec ag gamma)^[j] ag.policy_evaluation) < eps) := by
  have hpure := evaluate_policy_aux?_pure gamma eps hWF hn1 hn2
  refine ⟨loopPCount (jacobiSweepSpec ag gamma) (jacobiDelta ag gamma) eps n
      ag.policy_evaluation, ?_,
    loopPCount_pos n ag.policy_evaluation hn1,
    loopPCount_le n ag.policy_evaluation,
    loopPCount_stop n ag.policy_evaluation hn1,
    fun j hj => loopPCount_min n ag.policy_evaluation j hj⟩
  rw [hpure]
  unfold evalPure
  rw [loopP_eq_iterate]

/-- C3, witness: the amended theorem applied to the bandit agent. -/
theorem c3_evaluation_terminates_witness :
    (wAgent.evaluate_policy_aux? 1 (1/100) 10).isSome := by
  obtain ⟨k, hk, -⟩ := c3_evaluation_terminates wAgent 1 (1/100) 10
    (of_decide_eq_true rfl) (by norm_num) (by norm_num)
  rw [hk]
  rfl

/-- C4, counterexample: querying the never-built id 99 makes
`get_best_action` panic (`self.policy.get(&state_id).unwrap()` on a missing
key — the embedded outer `none`) instead of returning an explicit absent
result; only the system-model lookup returns `None`. -/
theorem c4_lookup_counterexample :
    mfind? wSys.states 99 = none ∧ wAgent.get_best_action 99 = none := by
  with_unfolding_all decide

/-- C4 (amended): the system-model lookup of a never-built id returns `None`
without panicking, but the agent's best-action query panics on any id absent
from its policy map — which, after `init_random`, is exactly the never-built
ids — and returns an explicit optional result only for ids present in the
policy. -/
theorem c4_lookup_miss {links : List StateLink} {sys : SystemState}
    (h : SystemState.create_and_build links = some sys) (id : Int) :
    (mfind? sys.states id = none → sys.get_state id = none ∧
      (Agent.init_random sys).get_best_action id = none) ∧
    ((mfind? sys.states id).isSome →
      ∃ r, (Agent.init_random sys).get_best_action id = some r) := by
  have hpol : mfind? (Agent.init_random sys).policy id =
      (mfind? sys.states id).map (fun st => st.get_random_policy) := by
    show mfind? (sys.states.map (fun kv => (kv.1, kv.2.get_random_policy))) id = _
    exact mfind?_mapPair sys.states (fun _ st => st.get_random_policy) id
  constructor
  · intro hn
    refine ⟨hn, ?_⟩
    unfold Agent.get_best_action
    rw [hpol, hn]
    rfl
  · intro hs
    obtain ⟨st, hst⟩ := Option.isSome_iff_exists.1 hs
    refine ⟨maxByVal st.get_random_policy, ?_⟩
    unfold Agent.get_best_action
    rw [hpol, hst]
    rfl

/-- C4, witness: on the bandit, id 0 is answered with an explicit optional
result and the lookup of the never-built id 99 is `none`. -/
theorem c4_lookup_miss_witness :
    ((Agent.init_random wSys).get_best_action 0).isSome ∧
      wSys.get_state 99 = none := by
  have h0 := c4_lookup_miss (show SystemState.create_and_build wLinks = some wSys
    from rfl) 0
  have h99 := c4_lookup_miss (show SystemState.create_and_build wLinks = some wSys
    from rfl) 99
  constructor
  · obtain ⟨r, hr⟩ := h0.2 (of_decide_eq_true rfl)
    rw [hr]
    rfl
  · exact (h99.1 (of_decide_eq_true rfl)).1

/-- C5: graph build correctness — every `from` and `to` id of the
specification is a state of the built model; each state's outcome and reward
entries at `(a, d)` hold exactly the probability and reward of the last
specification record `(id, a, d)` (so the pairs present are exactly those of
the specs with that `from`, and duplicate `(from, action, to)` records
overwrite rather than accumulate); a state never appearing as `from` has
empty tables. -/
theorem c5_build_correct {links : List StateLink} {sys : SystemState}
    (h : SystemState.create_and_build links = some sys) :
    (∀ l ∈ links, (mfind? sys.states l.prev).isSome ∧
      (mfind? sys.states l.next).isSome) ∧
    (∀ id st, mfind? sys.states id = some st →
      (∀ a d, (mfind? st.transition_probs a).bind (fun row => mfind? row d) =
          (lastMatch links id a d).map StateLink.prob ∧
        (mfind? st.action_rewards a).bind (fun row => mfind? row d) =
          (lastMatch links id a d).map StateLink.reward) ∧
      ((∀ l ∈ links, l.prev ≠ id) →
        st.transition_probs = [] ∧ st.action_rewards = [])) := by
  have hing : ∀ id, (mfind? (ingest ([] : AssocMap Int ModelState) links) id).isSome →
      (mfind? sys.states id).isSome := by
    intro id hs
    obtain ⟨st₀, hst₀⟩ := Option.isSome_iff_exists.1 hs
    have hbuilt := built_ingest links [] (by intro kv h'; simp at h') (id, st₀)
      (mem_of_mfind?_eq_some hst₀)
    obtain ⟨st', hcs, -, -, -, -⟩ := cacheState_some_of_built hbuilt
    rw [build_lookup h id, hst₀]
    simp [hcs]
  constructor
  · intro l hl
    constructor
    · apply hing
      rw [mem_ingest l.prev links []]
      exact Or.inr ⟨l, hl, Or.inl rfl⟩
    · apply hing
      rw [mem_ingest l.next links []]
      exact Or.inr ⟨l, hl, Or.inr rfl⟩
  · intro id st hst
    rw [build_lookup h id] at hst
    cases hing0 : mfind? (ingest ([] : AssocMap Int ModelState) links) id with
    | none => rw [hing0] at hst; simp at hst
    | some st₀ =>
      rw [hing0, Option.some_bind] at hst
      have hbuilt := built_ingest links [] (by intro kv h'; simp at h') (id, st₀)
        (mem_of_mfind?_eq_some hing0)
      obtain ⟨st', hcs, htp, har, -, -⟩ := cacheState_some_of_built hbuilt
      rw [hcs] at hst
      rw [Option.some_inj] at hst
      subst hst
      constructor
      · intro a d
        have hfp := findProb_ingest id a d links []
        have hfr := findRew_ingest id a d links []
        have hnilp : findProb ([] : AssocMap Int ModelState) id a d = none := rfl
        have hnilr : findRew ([] : AssocMap Int ModelState) id a d = none := rfl
        rw [hnilp] at hfp
        rw [hnilr] at hfr
        have hmapp : (match lastMatch links id a d with
            | some r => some r.prob
            | none => (none : Option ℚ)) = (lastMatch links id a d).map StateLink.prob := by
          cases lastMatch links id a d <;> rfl
        have hmapr : (match lastMatch links id a d with
            | some r => some r.reward
            | none => (none : Option ℚ)) = (lastMatch links id a d).map StateLink.reward := by
          cases lastMatch links id a d <;> rfl
        rw [hmapp] at hfp
        rw [hmapr] at hfr
        unfold findProb at hfp
        unfold findRew at hfr
        rw [hing0, Option.some_bind] at hfp hfr
        constructor
        · rw [htp]
          exact hfp
        · rw [har]
          exact hfr
      · intro hnofrom
        have hempty := notFrom_ingest id links [] hnofrom
          (by intro st hst'; simp [mfind?] at hst') st₀ hing0
        rw [htp, har]
        exact hempty

/-- C5, witness: in the duplicate-edge system, the stored probability of
`(0, "a", 1)` is the later record's `1/3`, not the earlier `1/2` nor any
accumulation. -/
theorem c5_build_correct_witness :
    (mfind? dupSt.transition_probs "a").bind (fun row => mfind? row 1) =
      some (1/3) := by
  have h := c5_build_correct
    (show SystemState.create_and_build dupLinks = some dupSys from rfl)
  have h2 := ((h.2 0 dupSt rfl).1 "a" 1).1
  rw [h2]
  with_unfolding_all decide

/-- C6, counterexample: with `outerIterations = 0` the improvement loop still
runs one full iteration — the policy changes from the uniform one to a
deterministic one — so "repeats up to outerIterations times" fails at 0 (the
do-while loop always runs once; its `u32` counter can only equal 0 after
wrapping). -/
theorem c6_cap_counterexample :
    ¬ ((wAgent.deterministic_policy_improvement? 1 1000 0 1).map Agent.policy =
      some wAgent.policy) := by
  with_unfolding_all decide

/-- C6 (amended): for a covered agent with a nonempty value table and caps
`1 ≤ outerIterations, innerEvalSweeps < 2^32`, the improvement loop first
evaluates with the `innerEvalSweeps` cap and then performs `k` outer
iterations with `1 ≤ k ≤ outerIterations`, each iteration being exactly the
spec's step — replace the policy by the greedy deterministic one (probability
1 on each state's best action, the empty mapping for an actionless state) and
re-evaluate under a fixed internal cap of 100 sweeps — stopping at the first
iteration whose maximum absolute value change versus its snapshot is below
`ε`, or when the cap is reached. -/
theorem c6_policy_improvement (ag : Agent) (gamma eps : ℚ) (piters eiters : Nat)
    (hWF : ag.WF) (hne : ag.policy_evaluation ≠ [])
    (hp1 : 1 ≤ piters) (hp2 : piters < 2 ^ 32)
    (he1 : 1 ≤ eiters) (he2 : eiters < 2 ^ 32) :
    ∃ k, ag.deterministic_policy_improvement_aux? gamma eps piters eiters =
        some ((improveStepSpec gamma eps)^[k] (evalPure ag gamma eps eiters), k) ∧
      1 ≤ k ∧ k ≤ piters ∧
      (improveDiffSpec gamma eps ((improveStepSpec gamma eps)^[k - 1]
          (evalPure ag gamma eps eiters)) < eps ∨ k = piters) ∧
      (∀ j, j + 1 < k →
        ¬ improveDiffSpec gamma eps ((improveStepSpec gamma eps)^[j]
            (evalPure ag gamma eps eiters)) < eps) := by
  have hpure := improvement_aux?_pure gamma eps hWF hne hp1 hp2 he1 he2
  refine ⟨loopPCount (improveStepSpec gamma eps) (improveDiffSpec gamma eps) eps piters
      (evalPure ag gamma eps eiters), ?_,
    loopPCount_pos piters (evalPure ag gamma eps eiters) hp1,
    loopPCount_le piters (evalPure ag gamma eps eiters),
    loopPCount_stop piters (evalPure ag gamma eps eiters) hp1,
    fun j hj => loopPCount_min piters (evalPure ag gamma eps eiters) j hj⟩
  rw [hpure, loopP_eq_iterate]

/-- C6, witness: the amended theorem applied to the bandit agent. -/
theorem c6_policy_improvement_witness :
    (wAgent.deterministic_policy_improvement_aux? 1 (1/100) 3 2).isSome := by
  obtain ⟨k, hk, -⟩ := c6_policy_improvement wAgent 1 (1/100) 3 2
    (of_decide_eq_true rfl) (of_decide_eq_true rfl)
    (by norm_num) (by norm_num) (by norm_num) (by norm_num)
  rw [hk]
  rfl

/-- C7: `init_random` of a built system gives every state with `k ≥ 1`
actions (the action keys are duplicate-free, so `k` is the table length)
probability exactly `1/k` on each of its actions and nothing else, the empty
policy to actionless states, and a value table with entry 0 for every built
state. -/
theorem c7_init_random_uniform {links : List StateLink} {sys : SystemState}
    (h : SystemState.create_and_build links = some sys) :
    ∀ id st, mfind? sys.states id = some st →
      NodupKeys st.action_rewards ∧
      mfind? (Agent.init_random sys).policy id = some st.get_random_policy ∧
      (st.action_rewards = [] → st.get_random_policy = []) ∧
      (∀ a, (mfind? st.action_rewards a).isSome →
        mfind? st.get_random_policy a =
          some (1 / (st.action_rewards.length : ℚ))) ∧
      (∀ a, (mfind? st.get_random_policy a).isSome →
        (mfind? st.action_rewards a).isSome) ∧
      mfind? (Agent.init_random sys).policy_evaluation id = some 0 := by
  intro id st hst
  obtain ⟨st₀, hmem, hbuilt, hcs⟩ := build_state_origin h (id, st)
    (mem_of_mfind?_eq_some hst)
  obtain ⟨st', hcs', -, har, -, -⟩ := cacheState_some_of_built hbuilt
  rw [hcs'] at hcs
  rw [Option.some_inj] at hcs
  subst hcs
  refine ⟨?_, ?_, ?_, ?_, ?_, ?_⟩
  · rw [har]
    exact hbuilt.2.1
  · show mfind? (sys.states.map (fun kv => (kv.1, kv.2.get_random_policy))) id = _
    rw [mfind?_mapPair sys.states (fun _ st => st.get_random_policy) id, hst]
    rfl
  · intro he
    unfold ModelState.get_random_policy
    rw [he]
    rfl
  · intro a ha
    unfold ModelState.get_random_policy
    rw [mfind?_mapPair st'.action_rewards
      (fun _ _ => 1 / (st'.action_rewards.length : ℚ)) a]
    obtain ⟨r, hr⟩ := Option.isSome_iff_exists.1 ha
    rw [hr]
    rfl
  · intro a ha
    unfold ModelState.get_random_policy at ha
    rw [mfind?_mapPair st'.action_rewards
      (fun _ _ => 1 / (st'.action_rewards.length : ℚ)) a] at ha
    simpa using ha
  · show mfind? (sys.states.map (fun kv => (kv.1, (0 : ℚ)))) id = some 0
    rw [mfind?_mapPair sys.states (fun _ _ => (0 : ℚ)) id, hst]
    rfl

/-- C7, witness: in the bandit, state 0 has three actions and each receives
probability exactly 1/3. -/
theorem c7_init_random_uniform_witness :
    mfind? wSt0.get_random_policy "Arm_1" = some (1/3) := by
  have h := c7_init_random_uniform
    (show SystemState.create_and_build wLinks = some wSys from rfl) 0 wSt0 rfl
  have h4 := h.2.2.2.1 "Arm_1" (of_decide_eq_true rfl)
  rw [h4]
  with_unfolding_all decide

/-- C8: after build, every destination row of a state's inbound-transition
transpose contains an entry for every action of the state, equal to the spec
edge probability of the last matching record when the action has an edge to
that destination and 0 otherwise — so a weighted sum over the full action set
is well-defined for every listed destination. -/
theorem c8_transpose_complete {links : List StateLink} {sys : SystemState}
    (h : SystemState.create_and_build links = some sys) :
    ∀ id st, mfind? sys.states id = some st →
      ∀ d row, mfind? st.eval_transition_probs d = some row →
        ∀ kv ∈ st.transition_probs,
          mfind? row kv.1 =
            some (((lastMatch links id kv.1 d).map StateLink.prob).getD 0) := by
  intro id st hst
  rw [build_lookup h id] at hst
  cases hing0 : mfind? (ingest ([] : AssocMap Int ModelState) links) id with
  | none => rw [hing0] at hst; simp at hst
  | some st₀ =>
    rw [hing0, Option.some_bind] at hst
    have hbuilt := built_ingest links [] (by intro kv h'; simp at h') (id, st₀)
      (mem_of_mfind?_eq_some hing0)
    obtain ⟨st', hcs, htp, -, hetp, -⟩ := cacheState_some_of_built hbuilt
    rw [hcs] at hst
    rw [Option.some_inj] at hst
    subst hst
    intro d row hrow kv hkv
    have hkv₀ : kv ∈ st₀.transition_probs := htp ▸ hkv
    have ha : (mfind? st₀.transition_probs kv.1).isSome := mfind?_isSome_of_mem hkv₀
    have hlook := calcEvalTransitionT_lookup hbuilt.1
      (fun kv' h' => hbuilt.2.2.1 kv' h') (hetp ▸ hrow) ha
    rw [hlook]
    have hfp := findProb_ingest id kv.1 d links []
    have hnilp : findProb ([] : AssocMap Int ModelState) id kv.1 d = none := rfl
    rw [hnilp] at hfp
    have hmapp : (match lastMatch links id kv.1 d with
        | some r => some r.prob
        | none => (none : Option ℚ)) = (lastMatch links id kv.1 d).map StateLink.prob := by
      cases lastMatch links id kv.1 d <;> rfl
    rw [hmapp] at hfp
    unfold findProb at hfp
    rw [hing0, Option.some_bind] at hfp
    rw [hfp]

/-- C8, witness: in the bandit, the transpose row of state 0 at destination 1
gives action `Arm_2` its edge probability 1. -/
theorem c8_transpose_complete_witness : mfind? wRow "Arm_2" = some 1 := by
  have h := c8_transpose_complete
    (show SystemState.create_and_build wLinks = some wSys from rfl) 0 wSt0 rfl 1 wRow
    rfl ("Arm_2", (mfind? wSt0.transition_probs "Arm_2").getD [])
    (of_decide_eq_true rfl)
  rw [h]
  with_unfolding_all decide

/-- C9: `evaluate_policy` panics exactly when some id of the value table is
absent from the policy mapping or some policy key is not a built state — the
coverage precondition for panic-freedom.  In particular a `set_polity` that
drops a built state (which the value table still lists) makes the next
evaluation panic. -/
theorem c9_evaluation_panic_iff (ag : Agent) (gamma eps : ℚ) (n : Nat) :
    ag.evaluate_policy? gamma eps n = none ↔
      (∃ kv ∈ ag.policy_evaluation, mfind? ag.policy kv.1 = none) ∨
      (∃ kv ∈ ag.policy, mfind? ag.system_state.states kv.1 = none) := by
  constructor
  · intro hnone
    by_contra hc
    push_neg at hc
    obtain ⟨h1, h2⟩ := hc
    have h1' : ∀ kv ∈ ag.policy_evaluation, (mfind? ag.policy kv.1).isSome := by
      intro kv hkv
      cases hm : mfind? ag.policy kv.1 with
      | none => exact absurd hm (h1 kv hkv)
      | some v => simp
    have h2' : ∀ kv ∈ ag.policy, (mfind? ag.system_state.states kv.1).isSome := by
      intro kv hkv
      cases hm : mfind? ag.system_state.states kv.1 with
      | none => exact absurd hm (h2 kv hkv)
      | some v => simp
    have := evaluate_policy?_isSome gamma eps n h1' h2'
    rw [hnone] at this
    simp at this
  · rintro (⟨kv, hkv, hm⟩ | ⟨kv, hkv, hm⟩)
    · by_cases hb : ∀ kv ∈ ag.policy, (mfind? ag.system_state.states kv.1).isSome
      · exact evaluate_policy?_none_of_badValue gamma eps n hb hkv hm
      · push_neg at hb
        obtain ⟨kv', hkv', h'⟩ := hb
        have h'' : mfind? ag.system_state.states kv'.1 = none := by
          cases hm' : mfind? ag.system_state.states kv'.1 with
          | none => rfl
          | some v => rw [hm'] at h'; simp at h'
        exact evaluate_policy?_none_of_badPolicy gamma eps n hkv' h''
    · exact evaluate_policy?_none_of_badPolicy gamma eps n hkv hm

/-- C9, witness: dropping built state 1 from the bandit's policy via
`set_polity` makes the next evaluation panic. -/
theorem c9_evaluation_panic_iff_witness :
    (wAgent.set_polity [(0, [("Arm_3", 1)])]).evaluate_policy? 1 (1/100) 10 = none := by
  apply (c9_evaluation_panic_iff (wAgent.set_polity [(0, [("Arm_3", 1)])])
    1 (1/100) 10).2
  left
  refine ⟨(1, 0), of_decide_eq_true rfl, rfl⟩

/-- C10: the builder always succeeds, and every built per-state model keeps
its outcome and reward tables with identical key structure — the same action
set, and per action the same destination set — so the expected-action-reward
cache computation's lookups always succeed (its error branch is
unreachable). -/
theorem c10_tables_same_shape (links : List StateLink) :
    (SystemState.create_and_build links).isSome ∧
    (∀ sys, SystemState.create_and_build links = some sys →
      ∀ kv ∈ sys.states,
        keysEq kv.2.transition_probs kv.2.action_rewards ∧
        (∀ av ∈ kv.2.transition_probs,
          keysEq av.2 ((mfind? kv.2.action_rewards av.1).getD [])) ∧
        (calcEvalRewards? kv.2).isSome) := by
  constructor
  · have hb := computeCaches_isSome (built_ingest links [] (by intro kv h'; simp at h'))
    have hform : SystemState.create_and_build links =
        (match computeCaches (ingest ([] : AssocMap Int ModelState) links) with
        | none => none
        | some sts =>
          some { states := sts, speficication := links, is_built := true }) := rfl
    rw [hform]
    cases hc : computeCaches (ingest ([] : AssocMap Int ModelState) links) with
    | none => rw [hc] at hb; simp at hb
    | some sts => rfl
  · intro sys hsys kv hkv
    obtain ⟨st₀, hmem, hbuilt, hcs⟩ := build_state_origin hsys kv hkv
    obtain ⟨st', hcs', htp, har, -, -⟩ := cacheState_some_of_built hbuilt
    rw [hcs'] at hcs
    rw [Option.some_inj] at hcs
    rw [← hcs]
    refine ⟨?_, ?_, ?_⟩
    · rw [htp, har]
      exact hbuilt.2.2.2.2.1
    · intro av hav
      rw [har]
      exact hbuilt.2.2.2.2.2 av (htp ▸ hav)
    · have hcongr : calcEvalRewards? st' = calcEvalRewards? st₀ := by
        unfold calcEvalRewards?
        rw [htp, har]
      rw [hcongr]
      exact calcEvalRewards?_isSome_of_built hbuilt

/-- C10, witness: the same-shape invariant and cache success on the bandit's
state 0. -/
theorem c10_tables_same_shape_witness :
    (SystemState.create_and_build wLinks).isSome ∧ (calcEvalRewards? wSt0).isSome := by
  have h := c10_tables_same_shape wLinks
  refine ⟨h.1, ?_⟩
  have h2 := h.2 wSys rfl (0, wSt0) (mem_of_mfind?_eq_some rfl)
  exact h2.2.2

end Claims

end CompleteIter
